import Mathlib

/-!
# A verification development for the `eicg` pseudocode-to-python compiler

This file gives a shallow embedding, in Lean 4, of the three stages of the
compiler — the lexer (`internal/lexer/lexer.go`), the recursive-descent
parser (`internal/parser/parser.go`), and the python printer
(`internal/printer/printers/python/python.go`) — together with theorems
about the behaviour of the embedded code.

Modelling conventions:
* The character source (Go `bufio.Reader`) is a `List Char`; `UnreadRune`
  puts the rune back on the front of the list.
* Go `(value, error)` returns are modelled with explicit sum/option types.
  The only error value the lexer ever produces is `io.EOF`, returned
  together with `UnknownToken`; that pair is one constructor (`eofSignal`
  in `NextOut`, `none` as a queued `TokenResult`).
* `log.Fatal` (process abort) is a distinguished outcome (`PRes.fatal`,
  and `none` for a printer abort), never silently recovered.
* Go `int` row/column counters are `Int`.
* `unicode.IsLetter` / `unicode.IsDigit` are modelled by `Char.isAlpha` /
  `Char.isDigit`; they agree with Go on ASCII input, which is all that the
  concrete theorems below use.
-/

set_option maxHeartbeats 1000000

namespace Eicg

/-! ## Tokens (`internal/lexer/token.go`) -/

/-- Go `TokenType` (an `iota` enumeration, `TokenUnknown` first). -/
inductive TokenType where
  | unknown
  | squareBracketOpen
  | squareBracketClose
  | comma
  | name
  | number
  | slash
  | equals
deriving DecidableEq, Repr

/-- Go `Location` — `{Col, Row, File}`, used only for diagnostics. -/
structure Location where
  col : Int
  row : Int
  file : String
deriving DecidableEq, Repr

/-- Go `Token` — `{Typ, Value, Location}`. -/
structure Token where
  typ : TokenType
  value : String
  location : Location
deriving DecidableEq, Repr

/-- Go `var UnknownToken = Token{Typ: TokenUnknown, Value: "<unknown>", Location: Location{}}`. -/
def UnknownToken : Token :=
  { typ := .unknown, value := "<unknown>", location := { col := 0, row := 0, file := "" } }

/-! ## The lexer (`internal/lexer/lexer.go`) -/

/-- The mutable scanning position of the Go `Lexer` (fields `row`, `col`). -/
structure LexState where
  row : Int
  col : Int
deriving DecidableEq, Repr

/-- Result of one call of the Go method `Lexer.next`: either a token
(with the updated position and the not-yet-consumed rest of the source),
or the pair `(UnknownToken, io.EOF)`.  The Go code returns that pair in
three places: on `ReadRune` end of input, on end of input inside a `//`
comment, and — falling out of the scanning loop — on an unrecognized
rune. -/
inductive NextOut where
  | tok (t : Token) (st : LexState) (rest : List Char)
  | eofSignal (st : LexState) (rest : List Char)
deriving DecidableEq, Repr

/-- Models Go `unicode.IsLetter` (agrees on ASCII). -/
def isLetterRune (c : Char) : Bool := c.isAlpha

/-- Models Go `unicode.IsDigit` (agrees on ASCII). -/
def isDigitRune (c : Char) : Bool := c.isDigit

/-- Is `c` one of the newline-like runes of the Go case
`'\n', '\v', '\f', '\r'` (which bump `row` and reset `col`)? -/
def isNewlineRune (c : Char) : Bool :=
  c = '\n' || c = '\x0b' || c = '\x0c' || c = '\x0d'

/-- Is `c` one of the runes of the Go case `' ', '\t', 0x85, 0xA0`
(skipped, bumping `col`)? -/
def isSkipRune (c : Char) : Bool :=
  c = ' ' || c = '\t' || c.toNat = 0x85 || c.toNat = 0xA0

/-- The classification of a rune by the body of `Lexer.next`, in the
order the Go code tests: `unicode.IsLetter`, `unicode.IsDigit`, then the
cases of the single-rune `switch` (`'='`; the newline runes; the other
layout runes; `'/'`; `'['`; `']'`; `','`), and finally the fall-through
(`other`) that ends the scanning loop. -/
inductive RuneClass where
  | letter
  | digit
  | equalsSign
  | newline
  | layout
  | slash
  | openBracket
  | closeBracket
  | commaRune
  | other
deriving DecidableEq, Repr

def classifyRune (c : Char) : RuneClass :=
  if isLetterRune c then .letter
  else if isDigitRune c then .digit
  else if c = '=' then .equalsSign
  else if isNewlineRune c then .newline
  else if isSkipRune c then .layout
  else if c = '/' then .slash
  else if c = '[' then .openBracket
  else if c = ']' then .closeBracket
  else if c = ',' then .commaRune
  else .other

/-- The scanning loop of `Lexer.next`.  The boolean flags are the local
variables `searchName`, `searchNumber`, `maybeComment` of the Go code;
`inComment` models being inside the `ReadBytes('\n')` call that discards
a `//` comment (it consumes runes up to and including the next `'\n'`
without touching `row`/`col`, and yields `(UnknownToken, io.EOF)` if the
source ends first).  The Go `switch true` cases `searchName` and
`searchNumber` are tested, in that order, before the rune is classified;
`searchName` accepts digits or letters, `searchNumber` only digits,
anything else hands back the rune (`UnreadRune`) and emits the
accumulated token. -/
def nextLoop (st : LexState) (nameAcc numberAcc : List Char)
    (searchName searchNumber maybeComment inComment : Bool) :
    List Char → NextOut
  | [] => .eofSignal st []
  | r :: rest =>
    match inComment, searchName, searchNumber with
    | true, _, _ =>
      if r = '\n' then
        nextLoop st nameAcc numberAcc searchName searchNumber false false rest
      else
        nextLoop st nameAcc numberAcc searchName searchNumber maybeComment true rest
    | false, true, _ =>
      match classifyRune r with
      | .digit | .letter =>
        nextLoop { st with col := st.col + 1 } (nameAcc ++ [r]) numberAcc
          searchName searchNumber maybeComment false rest
      | _ =>
        .tok { typ := .name, value := String.mk nameAcc,
               location := { col := st.col - (nameAcc.length : Int), row := st.row, file := "" } }
          st (r :: rest)
    | false, false, true =>
      match classifyRune r with
      | .digit =>
        nextLoop { st with col := st.col + 1 } nameAcc (numberAcc ++ [r])
          searchName searchNumber maybeComment false rest
      | _ =>
        .tok { typ := .number, value := String.mk numberAcc,
               location := { col := st.col - (numberAcc.length : Int), row := st.row, file := "" } }
          st (r :: rest)
    | false, false, false =>
      match classifyRune r with
      | .letter =>
        nextLoop { st with col := st.col + 1 } (nameAcc ++ [r]) numberAcc
          true searchNumber maybeComment false rest
      | .digit =>
        nextLoop { st with col := st.col + 1 } nameAcc (numberAcc ++ [r])
          searchName true maybeComment false rest
      | .equalsSign =>
        .tok { typ := .equals, value := "=", location := { col := 0, row := 0, file := "" } } st rest
      | .newline =>
        nextLoop { row := st.row + 1, col := 0 } nameAcc numberAcc
          searchName searchNumber maybeComment false rest
      | .layout =>
        nextLoop { st with col := st.col + 1 } nameAcc numberAcc
          searchName searchNumber maybeComment false rest
      | .slash =>
        if maybeComment then
          nextLoop st nameAcc numberAcc searchName searchNumber false true rest
        else
          nextLoop st nameAcc numberAcc searchName searchNumber true false rest
      | .openBracket =>
        .tok { typ := .squareBracketOpen, value := "[",
               location := { col := st.col, row := st.row, file := "" } } st rest
      | .closeBracket =>
        .tok { typ := .squareBracketClose, value := "]",
               location := { col := st.col, row := st.row, file := "" } } st rest
      | .commaRune =>
        .tok { typ := .comma, value := ",",
               location := { col := st.col, row := st.row, file := "" } } st rest
      | .other =>
        .eofSignal st rest

/-- The Go method `Lexer.next`: run the scanning loop with all local
flags initially false and empty accumulators. -/
def lexnext (st : LexState) (src : List Char) : NextOut :=
  nextLoop st [] [] false false false false src

/-- Every `tok` outcome of the scanning loop leaves at most the input
behind (the loop can hand back one unread rune, never more). -/
theorem nextLoop_tok_length {st na nu sn snum mc ic src t st2 rest}
    (h : nextLoop st na nu sn snum mc ic src = .tok t st2 rest) :
    rest.length ≤ src.length := by
  induction src generalizing st na nu sn snum mc ic with
  | nil => simp [nextLoop] at h
  | cons r rs ih =>
    rw [nextLoop.eq_def] at h
    repeat' split at h
    all_goals
      (try injections);
      (try subst_vars);
      (try (exact Nat.le_trans (ih h) (Nat.le_succ _)));
      (try (exact Nat.le_trans (ih h.symm) (Nat.le_succ _)));
      (try (simp at h));
      (try (simp only [List.length_cons]));
      (try omega)

/-- Every `eofSignal` outcome of the scanning loop leaves at most the
input behind. -/
theorem nextLoop_eof_length {st na nu sn snum mc ic src st2 rest}
    (h : nextLoop st na nu sn snum mc ic src = .eofSignal st2 rest) :
    rest.length ≤ src.length := by
  induction src generalizing st na nu sn snum mc ic with
  | nil => simp [nextLoop] at h; simp [h]
  | cons r rs ih =>
    rw [nextLoop.eq_def] at h
    repeat' split at h
    all_goals
      (try injections);
      (try subst_vars);
      (try (exact Nat.le_trans (ih h) (Nat.le_succ _)));
      (try (exact Nat.le_trans (ih h.symm) (Nat.le_succ _)));
      (try (simp at h));
      (try (simp only [List.length_cons]));
      (try omega)

/-- `Lexer.next` consumes at least one rune whenever it produces a token. -/
theorem lexnext_tok_length {st src t st2 rest}
    (h : lexnext st src = .tok t st2 rest) : rest.length < src.length := by
  unfold lexnext at h
  cases src with
  | nil => simp [nextLoop] at h
  | cons r rs =>
    rw [nextLoop.eq_def] at h
    repeat' split at h
    all_goals
      (try injections);
      (try subst_vars);
      (try (exact Nat.lt_succ_of_le (nextLoop_tok_length h)));
      (try (exact Nat.lt_succ_of_le (nextLoop_tok_length h.symm)));
      (try (simp at h));
      (try (simp only [List.length_cons]));
      (try omega);
      (try (simp_all [List.length_cons]));
      (try omega)

/-- `Lexer.next` never grows the source. -/
theorem lexnext_eof_length {st src st2 rest}
    (h : lexnext st src = .eofSignal st2 rest) : rest.length ≤ src.length := by
  exact nextLoop_eof_length h

/-- Repeatedly call `Lexer.next`, collecting tokens, stopping at the
first `(UnknownToken, io.EOF)` result — the token stream of a source
text, as the parser's `Parse` loop would consume it. -/
def tokenizeLoop (st : LexState) (src : List Char) : List Token :=
  match h : lexnext st src with
  | .tok t st2 rest => t :: tokenizeLoop st2 rest
  | .eofSignal _ _ => []
termination_by src.length
decreasing_by exact lexnext_tok_length h

/-- Token stream of a source text from the initial lexer state. -/
def tokenize (src : String) : List Token :=
  tokenizeLoop { row := 0, col := 0 } src.data

/-! ## The token queue (Go `Lexer` methods `Peek`, `MustPeek`, `Consume`, `Next`) -/

/-- A queued Go `TokenResult`: `some t` models `{Token: t, Error: nil}`;
`none` models the only failing result the lexer ever queues,
`{Token: UnknownToken, Error: io.EOF}`. -/
abbrev TokenResult := Option Token

/-- The Go `Lexer` object: the scanning position, the `tokenQueue` of
already-scanned results, and the unread source. -/
structure GoLexer where
  st : LexState
  tokenQueue : List TokenResult
  src : List Char
deriving DecidableEq, Repr

/-- One call of `l.lognext()` (which just logs and delegates to `next`):
produce a `TokenResult` and the lexer with its position and source
advanced. -/
def lognext (l : GoLexer) : TokenResult × GoLexer :=
  match lexnext l.st l.src with
  | .tok t st2 rest => (some t, { l with st := st2, src := rest })
  | .eofSignal st2 rest => (none, { l with st := st2, src := rest })

/-- Append `n` freshly scanned results to the token queue: the body of
the `for i := len(l.tokenQueue); i < count; i += 1` loop shared by
`Peek` and `MustPeek` (results are appended without checking for
error). -/
def fillN : Nat → GoLexer → GoLexer
  | 0, l => l
  | n + 1, l =>
    let (tr, l2) := lognext l
    fillN n { l2 with tokenQueue := l2.tokenQueue ++ [tr] }

/-- Ensure the queue holds at least `count` results. -/
def fill (l : GoLexer) (count : Nat) : GoLexer :=
  fillN (count - l.tokenQueue.length) l

/-- Go `Lexer.Peek(count)`: fill the queue, then return
`tokenQueue[count-1]` (the parser only calls it with `count ≥ 1`, so the
`getD` default is never reached). -/
def Peek (l : GoLexer) (count : Nat) : TokenResult × GoLexer :=
  let l2 := fill l count
  (l2.tokenQueue.getD (count - 1) none, l2)

/-- Go `Lexer.MustPeek(count)`: like `Peek`, but `log.Fatal`s (modelled
as `none`) when the result carries an error. -/
def MustPeek (l : GoLexer) (count : Nat) : Option (Token × GoLexer) :=
  let l2 := fill l count
  match l2.tokenQueue.getD (count - 1) none with
  | some t => some (t, l2)
  | none => none

/-- Go `Lexer.Consume`: drop the front of the queue; `log.Fatal`s
(modelled as `none`) when the queue is empty. -/
def Consume (l : GoLexer) : Option GoLexer :=
  match l.tokenQueue with
  | [] => none
  | _ :: q => some { l with tokenQueue := q }

/-- Go `Lexer.Next`: pop the front of the queue if it is nonempty,
otherwise scan a fresh result. -/
def Next (l : GoLexer) : TokenResult × GoLexer :=
  match l.tokenQueue with
  | tr :: q => (tr, { l with tokenQueue := q })
  | [] => lognext l

/-! ### A termination measure for the parser

Twice the unread source length plus the number of error-free queued
results.  Scanning a token trades at least one source rune for one
queued result, so no lexer operation increases the measure, and popping
an error-free result strictly decreases it. -/

def lexMeasure (l : GoLexer) : Nat :=
  2 * l.src.length + l.tokenQueue.countP (fun tr => tr.isSome)

theorem lognext_queue (l : GoLexer) : (lognext l).2.tokenQueue = l.tokenQueue := by
  unfold lognext
  rcases h : lexnext l.st l.src <;> simp

theorem lognext_src_le (l : GoLexer) : (lognext l).2.src.length ≤ l.src.length := by
  unfold lognext
  rcases h : lexnext l.st l.src with _ | _
  · simpa using Nat.le_of_lt (lexnext_tok_length h)
  · simpa using lexnext_eof_length h

theorem lognext_some_src_lt {l : GoLexer} {t : Token}
    (h : (lognext l).1 = some t) : (lognext l).2.src.length < l.src.length := by
  unfold lognext at h ⊢
  rcases h2 : lexnext l.st l.src with _ | _
  · simpa using lexnext_tok_length h2
  · rw [h2] at h; simp at h

theorem fillN_measure (n : Nat) (l : GoLexer) :
    lexMeasure (fillN n l) ≤ lexMeasure l := by
  induction n generalizing l with
  | zero => exact Nat.le_refl _
  | succ n ih =>
    rw [fillN]
    rcases h : lognext l with ⟨tr, l2⟩
    simp only [h]
    refine Nat.le_trans (ih _) ?_
    have hq := lognext_queue l
    have hs := lognext_src_le l
    rw [h] at hq hs
    simp at hq hs
    unfold lexMeasure
    simp only [List.countP_append, hq]
    rcases tr with _ | t
    · simp; omega
    · have hlt := lognext_some_src_lt (l := l) (t := t) (by rw [h])
      rw [h] at hlt
      simp at hlt
      simp; omega

theorem fillN_queue_extend (n : Nat) (l : GoLexer) :
    ∃ ext, (fillN n l).tokenQueue = l.tokenQueue ++ ext := by
  induction n generalizing l with
  | zero => exact ⟨[], by simp [fillN]⟩
  | succ n ih =>
    rw [fillN]
    obtain ⟨ext, hext⟩ := ih { lognext l |>.2 with tokenQueue := (lognext l).2.tokenQueue ++ [(lognext l).1] }
    exact ⟨(lognext l).1 :: ext, by simpa [lognext_queue] using hext⟩

theorem fillN_queue_length (n : Nat) (l : GoLexer) :
    (fillN n l).tokenQueue.length = l.tokenQueue.length + n := by
  induction n generalizing l with
  | zero => simp [fillN]
  | succ n ih =>
    rw [fillN]
    simp [ih, lognext_queue]
    omega

theorem fill_measure (l : GoLexer) (count : Nat) :
    lexMeasure (fill l count) ≤ lexMeasure l :=
  fillN_measure _ _

theorem fill_queue_extend (l : GoLexer) (count : Nat) :
    ∃ ext, (fill l count).tokenQueue = l.tokenQueue ++ ext :=
  fillN_queue_extend _ _

theorem fill_queue_length (l : GoLexer) (count : Nat) :
    (fill l count).tokenQueue.length = max count l.tokenQueue.length := by
  unfold fill
  rw [fillN_queue_length]
  omega

theorem fill_of_enough {l : GoLexer} {count : Nat}
    (h : count ≤ l.tokenQueue.length) : fill l count = l := by
  unfold fill
  rw [Nat.sub_eq_zero_of_le h]
  rfl

theorem Peek_measure (l : GoLexer) (count : Nat) :
    lexMeasure (Peek l count).2 ≤ lexMeasure l :=
  fill_measure _ _

theorem Next_measure_le (l : GoLexer) : lexMeasure (Next l).2 ≤ lexMeasure l := by
  obtain ⟨st0, q0, src0⟩ := l
  cases q0 with
  | nil =>
    have h1 := lognext_src_le ⟨st0, [], src0⟩
    have h2 := lognext_queue (⟨st0, [], src0⟩ : GoLexer)
    simp only [Next, lexMeasure]
    simp at h1
    simp [h2]
    omega
  | cons tr q =>
    simp [Next, lexMeasure, List.countP_cons]

theorem Next_measure_some {l : GoLexer} {t : Token}
    (h : (Next l).1 = some t) : lexMeasure (Next l).2 < lexMeasure l := by
  obtain ⟨st0, q0, src0⟩ := l
  cases q0 with
  | nil =>
    simp only [Next] at h ⊢
    have h1 := lognext_some_src_lt (l := ⟨st0, [], src0⟩) (t := t) h
    have h2 := lognext_queue (⟨st0, [], src0⟩ : GoLexer)
    simp at h1
    simp [lexMeasure, h2]
    omega
  | cons tr q =>
    simp only [Next] at h ⊢
    try simp at h
    subst h
    simp [lexMeasure, List.countP_cons]

theorem Consume_measure {l l2 : GoLexer} (h : Consume l = some l2) :
    lexMeasure l2 ≤ lexMeasure l := by
  obtain ⟨st0, q0, src0⟩ := l
  cases q0 with
  | nil => simp [Consume] at h
  | cons tr q =>
    simp only [Consume] at h
    try simp at h
    subst h
    simp [lexMeasure, List.countP_cons]

theorem Consume_measure_some {l l2 : GoLexer} {t : Token} {q : List TokenResult}
    (hq : l.tokenQueue = some t :: q) (h : Consume l = some l2) :
    lexMeasure l2 < lexMeasure l := by
  obtain ⟨st0, q0, src0⟩ := l
  simp only at hq
  subst hq
  simp only [Consume] at h
  simp at h
  subst h
  simp [lexMeasure, List.countP_cons]

/-- When `Peek(1)` delivers an error-free token, that token sits (as an
error-free result) at the front of the filled queue. -/
theorem Peek_one_some {l l2 : GoLexer} {t : Token}
    (h : Peek l 1 = (some t, l2)) : ∃ q, l2.tokenQueue = some t :: q := by
  unfold Peek at h
  have h2 : l2 = fill l 1 := by
    have := congrArg Prod.snd h
    simpa using this.symm
  have h1 : (fill l 1).tokenQueue.getD 0 none = some t := by
    have := congrArg Prod.fst h
    simpa using this
  subst h2
  rcases hq : (fill l 1).tokenQueue with _ | ⟨tr, q⟩
  · rw [hq] at h1; simp at h1
  · rw [hq] at h1
    simp at h1
    subst h1
    exact ⟨q, rfl⟩

/-! ## The parser (`internal/parser/parser.go`) -/

/-- The error values the parser can see or raise: `io.EOF` (from the
lexer), `ErrTokenNotExpected` (wrapped with expected/given kinds and the
location, from `expectToken`), the `failed to parse expression` error of
`parseExpression`, and the `consume called with empty queue` abort of
`Lexer.Consume`. -/
inductive GoError where
  | eof
  | tokenNotExpected (expected given : TokenType) (loc : Location)
  | failedParseExpression (t : Token)
  | consumeOnEmptyQueue
deriving DecidableEq, Repr

mutual
/-- The AST (`internal/parser/types.go`).  `ExprList` models the Go
slice `[]Expression` of `CallExpression.Args` (a separate inductive so
that the printer can recurse structurally). -/
inductive Expression where
  | variableReference (value : String)
  | literalNumber (value : String)
  | call (callName : String) (args : ExprList)
  | assignment (lhs rhs : Expression)
deriving DecidableEq, Repr
inductive ExprList where
  | nil
  | cons (e : Expression) (es : ExprList)
deriving DecidableEq, Repr
end

/-- Go `append(args, e)` on an argument slice. -/
def ExprList.snoc : ExprList → Expression → ExprList
  | .nil, e => .cons e .nil
  | .cons x xs, e => .cons x (xs.snoc e)

/-- The `[]Expression` slice as a Lean list. -/
def ExprList.toList : ExprList → List Expression
  | .nil => []
  | .cons e es => e :: es.toList

/-- Outcome of one parser function: a Go `(Expression, error)` return —
`ok` or `err`, each with the lexer as left behind — or a `log.Fatal`
abort (`fatal`) raised inside `MustPeek` or `Consume`. -/
inductive PRes (α : Type) where
  | ok (a : α) (l : GoLexer)
  | err (e : GoError) (l : GoLexer)
  | fatal (e : GoError)
deriving DecidableEq, Repr

/-- Go `Parser.expectToken`: pull the next token result; an error result
is returned as `(UnknownToken, err)`, a token of the wrong kind as
`ErrTokenNotExpected`, and a matching token as `(token, nil)`.  The
lexer is advanced in every case. -/
def expectToken (tokenType : TokenType) (l : GoLexer) : Except GoError Token × GoLexer :=
  match Next l with
  | (none, l2) => (.error .eof, l2)
  | (some token, l2) =>
    if token.typ = tokenType then (.ok token, l2)
    else (.error (.tokenNotExpected tokenType token.typ token.location), l2)

theorem expectToken_measure (tokenType : TokenType) (l : GoLexer) :
    lexMeasure (expectToken tokenType l).2 ≤ lexMeasure l := by
  unfold expectToken
  rcases h : Next l with ⟨tr, l2⟩
  have hle := Next_measure_le l
  rw [h] at hle
  rcases tr with _ | t
  · simpa using hle
  · simp only
    split <;> simpa using hle

theorem expectToken_ok_measure {tokenType : TokenType} {l l2 : GoLexer} {t : Token}
    (h : expectToken tokenType l = (.ok t, l2)) : lexMeasure l2 < lexMeasure l := by
  unfold expectToken at h
  rcases h2 : Next l with ⟨tr, l3⟩
  rw [h2] at h
  rcases tr with _ | t2
  · simp at h
  · have hlt := Next_measure_some (l := l) (t := t2) (by rw [h2])
    rw [h2] at hlt
    simp only at h
    split at h <;> simp at h
    obtain ⟨-, h⟩ := h
    rw [← h]
    exact hlt

theorem expectToken_snd {tokenType : TokenType} (l : GoLexer) :
    (expectToken tokenType l).2 = (Next l).2 := by
  unfold expectToken
  rcases h : Next l with ⟨tr, l2⟩
  rcases tr with _ | t
  · simp
  · simp only
    split <;> simp

/-- Does a Go `(t, err) := Peek(2)` result satisfy
`err == nil && t.Typ == tokenType`? -/
def resultTypIs (tr : TokenResult) (tokenType : TokenType) : Bool :=
  match tr with
  | some t => t.typ = tokenType
  | none => false

theorem Peek_snd (l : GoLexer) (count : Nat) : (Peek l count).2 = fill l count := rfl

theorem Peek_pair_measure {l l2 : GoLexer} {tr : TokenResult} {count : Nat}
    (h : Peek l count = (tr, l2)) : lexMeasure l2 ≤ lexMeasure l := by
  have h2 : l2 = fill l count := by
    have := congrArg Prod.snd h
    simpa [Peek_snd] using this.symm
  rw [h2]
  exact fill_measure l count

theorem Peek_pair_queue {l l2 : GoLexer} {tr : TokenResult} {count : Nat}
    (h : Peek l count = (tr, l2)) : ∃ ext, l2.tokenQueue = l.tokenQueue ++ ext := by
  have h2 : l2 = fill l count := by
    have := congrArg Prod.snd h
    simpa [Peek_snd] using this.symm
  rw [h2]
  exact fill_queue_extend l count

theorem MustPeek_measure {l l2 : GoLexer} {t : Token} {count : Nat}
    (h : MustPeek l count = some (t, l2)) : lexMeasure l2 ≤ lexMeasure l := by
  unfold MustPeek at h
  rcases h2 : (fill l count).tokenQueue.getD (count - 1) none with _ | t2 <;>
    simp only [h2] at h
  · simp at h
  · simp at h
    rw [← h.2]
    exact fill_measure l count

/-! ### The mutually recursive parsing functions

Each function is defined bundled with the termination bound it
guarantees: none of them ever grows `lexMeasure`, and a *successful*
`parseCall` / `parseAssignment` / `parseExpression` consumes at least
one error-free token, strictly shrinking it.  The bounds are what make
the mutual recursion (and the top-level `Parse` loop) well-founded. -/

/-- Bound of `parseCall`, `parseAssignment`, `parseExpression`. -/
def StrictShrink (n : Nat) : PRes Expression → Prop
  | .ok _ l2 => lexMeasure l2 < n
  | .err _ l2 => lexMeasure l2 ≤ n
  | .fatal _ => True

/-- Bound of `parseArgs` and its comma loop (parsing `[]` consumes no
token beyond the peeked bracket, so only non-growth is guaranteed). -/
def WeakShrink (n : Nat) : PRes ExprList → Prop
  | .ok _ l2 => lexMeasure l2 ≤ n
  | .err _ l2 => lexMeasure l2 ≤ n
  | .fatal _ => True

theorem StrictShrink_mono {n n2 : Nat} {r : PRes Expression}
    (hle : n ≤ n2) (h : StrictShrink n r) : StrictShrink n2 r := by
  cases r <;> simp [StrictShrink] at h ⊢ <;> omega

theorem WeakShrink_mono {n n2 : Nat} {r : PRes ExprList}
    (hle : n ≤ n2) (h : WeakShrink n r) : WeakShrink n2 r := by
  cases r <;> simp [WeakShrink] at h ⊢ <;> omega

theorem prodLex_of_le {a b x y : Nat} (h1 : a ≤ b) (h2 : a < b ∨ x < y) :
    Prod.Lex (fun m n => m < n) (fun m n => m < n) (a, x) (b, y) := by
  rcases Nat.lt_or_ge a b with h | h
  · exact Prod.Lex.left _ _ h
  · obtain rfl : a = b := Nat.le_antisymm h1 h
    rcases h2 with h2 | h2
    · exact absurd h2 (Nat.lt_irrefl _)
    · exact Prod.Lex.right _ h2

mutual

/-- Go `Parser.parseCall` (with its bound): consume a `Name` token, then
an `[` *ignoring any error* (`_, _ = p.expectToken(...)`), parse the
argument list, then a `]`, again ignoring any error, and build the
`CallExpression`. -/
def parseCallB (l : GoLexer) :
    {r : PRes Expression // StrictShrink (lexMeasure l) r} :=
  match h1 : expectToken .name l with
  | (.error e, l1) => ⟨.err e l1, by
      have hm := expectToken_measure .name l
      rw [h1] at hm
      simpa [StrictShrink] using hm⟩
  | (.ok called, l1) =>
    match parseArgsB (expectToken .squareBracketOpen l1).2 with
    | ⟨.fatal e, _⟩ => ⟨.fatal e, by simp [StrictShrink]⟩
    | ⟨.err e l3, hb⟩ => ⟨.err e l3, by
        have hm1 := expectToken_ok_measure h1
        have hm2 := expectToken_measure .squareBracketOpen l1
        simp [WeakShrink] at hb
        simp [StrictShrink]
        omega⟩
    | ⟨.ok args l3, hb⟩ =>
      ⟨.ok (.call called.value args) (expectToken .squareBracketClose l3).2, by
        have hm1 := expectToken_ok_measure h1
        have hm2 := expectToken_measure .squareBracketOpen l1
        have hm3 := expectToken_measure .squareBracketClose l3
        simp [WeakShrink] at hb
        simp [StrictShrink]
        omega⟩
termination_by (lexMeasure l, 1)
decreasing_by
  have hm1 := expectToken_ok_measure h1
  have hm2 := expectToken_measure .squareBracketOpen l1
  exact prodLex_of_le (by omega) (Or.inl (by omega))

/-- Go `Parser.parseAssignment` (with its bound): consume a `Name`
token, then an `=` *ignoring any error*, then parse the right-hand side
expression. -/
def parseAssignmentB (l : GoLexer) :
    {r : PRes Expression // StrictShrink (lexMeasure l) r} :=
  match h1 : expectToken .name l with
  | (.error e, l1) => ⟨.err e l1, by
      have hm := expectToken_measure .name l
      rw [h1] at hm
      simpa [StrictShrink] using hm⟩
  | (.ok lhs, l1) =>
    match parseExpressionB (expectToken .equals l1).2 with
    | ⟨.fatal e, _⟩ => ⟨.fatal e, by simp [StrictShrink]⟩
    | ⟨.err e l3, hb⟩ => ⟨.err e l3, by
        have hm1 := expectToken_ok_measure h1
        have hm2 := expectToken_measure .equals l1
        simp [StrictShrink] at hb ⊢
        omega⟩
    | ⟨.ok rhs l3, hb⟩ =>
      ⟨.ok (.assignment (.variableReference lhs.value) rhs) l3, by
        have hm1 := expectToken_ok_measure h1
        have hm2 := expectToken_measure .equals l1
        simp [StrictShrink] at hb ⊢
        omega⟩
termination_by (lexMeasure l, 1)
decreasing_by
  have hm1 := expectToken_ok_measure h1
  have hm2 := expectToken_measure .equals l1
  exact prodLex_of_le (by omega) (Or.inl (by omega))

/-- Go `Parser.parseExpression` (with its bound): peek one token; a
`Name` is disambiguated by a second peek (`[` ⇒ call, `=` ⇒ assignment,
otherwise a bare variable reference), a `Number` becomes a literal, and
anything else is the `failed to parse expression` error. -/
def parseExpressionB (l : GoLexer) :
    {r : PRes Expression // StrictShrink (lexMeasure l) r} :=
  match h1 : Peek l 1 with
  | (none, l1) => ⟨.err .eof l1, by
      have hm := Peek_pair_measure h1
      simpa [StrictShrink] using hm⟩
  | (some token, l1) =>
    if token.typ = .name then
      match h2 : Peek l1 2 with
      | (r2, l2) =>
        if resultTypIs r2 .squareBracketOpen then
          match parseCallB l2 with
          | ⟨r, hb⟩ => ⟨r, by
              have hm1 := Peek_pair_measure h1
              have hm2 := Peek_pair_measure h2
              exact StrictShrink_mono (by omega) hb⟩
        else
          match h3 : Peek l2 2 with
          | (r3, l3) =>
            if resultTypIs r3 .equals then
              match parseAssignmentB l3 with
              | ⟨r, hb⟩ => ⟨r, by
                  have hm1 := Peek_pair_measure h1
                  have hm2 := Peek_pair_measure h2
                  have hm3 := Peek_pair_measure h3
                  exact StrictShrink_mono (by omega) hb⟩
            else
              match h4 : Consume l3 with
              | none => ⟨.fatal .consumeOnEmptyQueue, by simp [StrictShrink]⟩
              | some l4 => ⟨.ok (.variableReference token.value) l4, by
                  have hm1 := Peek_pair_measure h1
                  have hm2 := Peek_pair_measure h2
                  have hm3 := Peek_pair_measure h3
                  obtain ⟨q1, hq1⟩ := Peek_one_some h1
                  obtain ⟨e2, hq2⟩ := Peek_pair_queue h2
                  obtain ⟨e3, hq3⟩ := Peek_pair_queue h3
                  have hq4 : l3.tokenQueue = some token :: (q1 ++ e2 ++ e3) := by
                    rw [hq3, hq2, hq1]
                    simp
                  have hlt := Consume_measure_some hq4 h4
                  simp [StrictShrink]
                  omega⟩
    else if token.typ = .number then
      match h2 : Consume l1 with
      | none => ⟨.fatal .consumeOnEmptyQueue, by simp [StrictShrink]⟩
      | some l2 => ⟨.ok (.literalNumber token.value) l2, by
          have hm1 := Peek_pair_measure h1
          obtain ⟨q1, hq1⟩ := Peek_one_some h1
          have hlt := Consume_measure_some hq1 h2
          simp [StrictShrink]
          omega⟩
    else
      ⟨.err (.failedParseExpression token) l1, by
        have hm := Peek_pair_measure h1
        simpa [StrictShrink] using hm⟩
termination_by (lexMeasure l, 2)
decreasing_by
  · have hm1 := Peek_pair_measure h1
    have hm2 := Peek_pair_measure h2
    exact prodLex_of_le (by omega) (Or.inr (by omega))
  · have hm1 := Peek_pair_measure h1
    have hm2 := Peek_pair_measure h2
    have hm3 := Peek_pair_measure h3
    exact prodLex_of_le (by omega) (Or.inr (by omega))

/-- Go `Parser.parseArgs` (with its bound): `MustPeek` the next token
(`log.Fatal` on an error result); an immediate `]` yields the empty
argument list, otherwise parse the first expression and enter the comma
loop. -/
def parseArgsB (l : GoLexer) :
    {r : PRes ExprList // WeakShrink (lexMeasure l) r} :=
  match h1 : MustPeek l 1 with
  | none => ⟨.fatal .eof, by simp [WeakShrink]⟩
  | some (token, l1) =>
    if token.typ ≠ .squareBracketClose then
      match parseExpressionB l1 with
      | ⟨.fatal e, _⟩ => ⟨.fatal e, by simp [WeakShrink]⟩
      | ⟨.err e2 l2, hb⟩ => ⟨.err e2 l2, by
          have hm1 := MustPeek_measure h1
          simp [StrictShrink] at hb
          simp [WeakShrink]
          omega⟩
      | ⟨.ok e2 l2, hb⟩ =>
        match parseArgsLoopB (ExprList.cons e2 .nil) l2 with
        | ⟨r, hb2⟩ => ⟨r, by
            have hm1 := MustPeek_measure h1
            simp [StrictShrink] at hb
            exact WeakShrink_mono (by omega) hb2⟩
    else
      ⟨.ok .nil l1, by
        have hm1 := MustPeek_measure h1
        simpa [WeakShrink] using hm1⟩
termination_by (lexMeasure l, 4)
decreasing_by
  · have hm1 := MustPeek_measure h1
    exact prodLex_of_le (by omega) (Or.inr (by omega))
  · have hm1 := MustPeek_measure h1
    simp [StrictShrink] at hb
    exact prodLex_of_le (by omega) (Or.inl (by omega))

/-- The comma loop inside Go `Parser.parseArgs` (with its bound): while
`Peek(1)` is a comma, consume it and parse another expression; a peek
error aborts with that error, anything but a comma ends the list. -/
def parseArgsLoopB (args : ExprList) (l : GoLexer) :
    {r : PRes ExprList // WeakShrink (lexMeasure l) r} :=
  match h1 : Peek l 1 with
  | (none, l1) => ⟨.err .eof l1, by
      have hm := Peek_pair_measure h1
      simpa [WeakShrink] using hm⟩
  | (some token, l1) =>
    if token.typ = .comma then
      match h2 : Consume l1 with
      | none => ⟨.fatal .consumeOnEmptyQueue, by simp [WeakShrink]⟩
      | some l2 =>
        match parseExpressionB l2 with
        | ⟨.fatal e, _⟩ => ⟨.fatal e, by simp [WeakShrink]⟩
        | ⟨.err e2 l3, hb⟩ => ⟨.err e2 l3, by
            have hm1 := Peek_pair_measure h1
            obtain ⟨q1, hq1⟩ := Peek_one_some h1
            have hlt := Consume_measure_some hq1 h2
            simp [StrictShrink] at hb
            simp [WeakShrink]
            omega⟩
        | ⟨.ok e2 l3, hb⟩ =>
          match parseArgsLoopB (args.snoc e2) l3 with
          | ⟨r, hb2⟩ => ⟨r, by
              have hm1 := Peek_pair_measure h1
              obtain ⟨q1, hq1⟩ := Peek_one_some h1
              have hlt := Consume_measure_some hq1 h2
              simp [StrictShrink] at hb
              exact WeakShrink_mono (by omega) hb2⟩
    else
      ⟨.ok args l1, by
        have hm := Peek_pair_measure h1
        simpa [WeakShrink] using hm⟩
termination_by (lexMeasure l, 3)
decreasing_by
  · have hm1 := Peek_pair_measure h1
    obtain ⟨q1, hq1⟩ := Peek_one_some h1
    have hlt := Consume_measure_some hq1 h2
    exact prodLex_of_le (by omega) (Or.inl (by omega))
  · have hm1 := Peek_pair_measure h1
    obtain ⟨q1, hq1⟩ := Peek_one_some h1
    have hlt := Consume_measure_some hq1 h2
    simp [StrictShrink] at hb
    exact prodLex_of_le (by omega) (Or.inl (by omega))

end

/-- Go `Parser.parseCall`. -/
def parseCall (l : GoLexer) : PRes Expression := (parseCallB l).val

/-- Go `Parser.parseAssignment`. -/
def parseAssignment (l : GoLexer) : PRes Expression := (parseAssignmentB l).val

/-- Go `Parser.parseExpression`. -/
def parseExpression (l : GoLexer) : PRes Expression := (parseExpressionB l).val

/-- Go `Parser.parseArgs`. -/
def parseArgs (l : GoLexer) : PRes ExprList := (parseArgsB l).val

theorem parseCall_bound (l : GoLexer) : StrictShrink (lexMeasure l) (parseCall l) :=
  (parseCallB l).property

/-- Go `parseArgs`, comma-loop step (the bundled definition above,
unbundled into the Go-shaped equation). -/
def parseArgsLoop (args : ExprList) (l : GoLexer) : PRes ExprList :=
  (parseArgsLoopB args l).val

/-- If the leading `Name` token is missing, `parseCall` returns that
error. -/
theorem parseCall_name_err {l l1 : GoLexer} {e : GoError}
    (h : expectToken .name l = (.error e, l1)) : parseCall l = .err e l1 := by
  unfold parseCall
  rw [parseCallB.eq_def]
  split
  · rename_i e2 l2 heq
    rw [h] at heq
    injection heq with hA hB
    injection hA with hC
    subst hB
    subst hC
    rfl
  · rename_i called2 l2 heq
    rw [h] at heq
    simp at heq

/-- The successful path of `parseCall`: a `Name`, the (ignored) `[`,
a successfully parsed argument list, and the (ignored) `]`. -/
theorem parseCall_name_ok {l l1 l3 : GoLexer} {called : Token} {args : ExprList}
    (h : expectToken .name l = (.ok called, l1))
    (h2 : parseArgs (expectToken .squareBracketOpen l1).2 = .ok args l3) :
    parseCall l = .ok (.call called.value args) (expectToken .squareBracketClose l3).2 := by
  unfold parseCall
  rw [parseCallB.eq_def]
  split
  · rename_i e2 l2 heq
    rw [h] at heq
    simp at heq
  · rename_i called2 l2 heq
    rw [h] at heq
    injection heq with hA hB
    injection hA with hC
    subst hB
    subst hC
    unfold parseArgs at h2
    rcases h3 : parseArgsB (expectToken .squareBracketOpen l1).2 with ⟨r, hb⟩
    rw [h3] at h2
    simp at h2
    subst h2
    rfl

/-- The successful head of `parseAssignment`: once the `Name` is
consumed (and the `=` consumed with its error ignored), the result is
determined by the right-hand side parse. -/
theorem parseAssignment_name_ok {l l1 : GoLexer} {lhs : Token}
    (h : expectToken .name l = (.ok lhs, l1)) :
    parseAssignment l =
      match parseExpression (expectToken .equals l1).2 with
      | .fatal e => .fatal e
      | .err e l3 => .err e l3
      | .ok rhs l3 => .ok (.assignment (.variableReference lhs.value) rhs) l3 := by
  unfold parseAssignment parseExpression
  rw [parseAssignmentB.eq_def]
  split
  · rename_i e2 l2 heq
    rw [h] at heq
    simp at heq
  · rename_i lhs2 l2 heq
    rw [h] at heq
    injection heq with hA hB
    injection hA with hC
    subst hB
    subst hC
    rcases parseExpressionB (expectToken .equals l1).2 with ⟨r, hb⟩
    cases r <;> rfl

/-- `parseExpression` on a `Name` whose second lookahead is an `[`:
delegate to `parseCall` from the state the two peeks left behind. -/
theorem parseExpression_name_open {l l1 l2 : GoLexer} {t : Token} {r2 : TokenResult}
    (hp1 : Peek l 1 = (some t, l1)) (ht : t.typ = .name)
    (hp2 : Peek l1 2 = (r2, l2)) (hr2 : resultTypIs r2 .squareBracketOpen = true) :
    parseExpression l = parseCall l2 := by
  unfold parseExpression parseCall
  rw [parseExpressionB.eq_def]
  split
  · rename_i heq
    rw [hp1] at heq
    simp at heq
  · rename_i t2 l12 heq
    rw [hp1] at heq
    injection heq with hA hB
    injection hA with hC
    subst hB
    subst hC
    rw [if_pos ht]
    split
    rename_i r2x l2x heq2
    rw [hp2] at heq2
    injection heq2 with hA2 hB2
    subst hA2
    subst hB2
    rw [if_pos hr2]

/-- `parseExpression` on a `Name` whose second lookahead is an `=` (and
not an `[`): delegate to `parseAssignment` from the state the peeks left
behind. -/
theorem parseExpression_name_equals {l l1 l2 l3 : GoLexer} {t : Token}
    {r2 r3 : TokenResult}
    (hp1 : Peek l 1 = (some t, l1)) (ht : t.typ = .name)
    (hp2 : Peek l1 2 = (r2, l2)) (hr2 : resultTypIs r2 .squareBracketOpen = false)
    (hp3 : Peek l2 2 = (r3, l3)) (hr3 : resultTypIs r3 .equals = true) :
    parseExpression l = parseAssignment l3 := by
  unfold parseExpression parseAssignment
  rw [parseExpressionB.eq_def]
  split
  · rename_i heq
    rw [hp1] at heq
    simp at heq
  · rename_i t2 l12 heq
    rw [hp1] at heq
    injection heq with hA hB
    injection hA with hC
    subst hB
    subst hC
    rw [if_pos ht]
    split
    rename_i r2x l2x heq2
    rw [hp2] at heq2
    injection heq2 with hA2 hB2
    subst hA2
    subst hB2
    rw [if_neg (by rw [hr2]; exact Bool.false_ne_true)]
    split
    rename_i r3x l3x heq3
    rw [hp3] at heq3
    injection heq3 with hA3 hB3
    subst hA3
    subst hB3
    rw [if_pos hr3]

/-- `parseExpression` on a `Number` token consumes it into a literal. -/
theorem parseExpression_number {l l1 l2 : GoLexer} {t : Token}
    (hp1 : Peek l 1 = (some t, l1)) (ht : t.typ = .number)
    (hc : Consume l1 = some l2) :
    parseExpression l = .ok (.literalNumber t.value) l2 := by
  unfold parseExpression
  rw [parseExpressionB.eq_def]
  split
  · rename_i heq
    rw [hp1] at heq
    simp at heq
  · rename_i t2 l12 heq
    rw [hp1] at heq
    injection heq with hA hB
    injection hA with hC
    subst hB
    subst hC
    have hni : ¬(t.typ = TokenType.name) := by rw [ht]; simp
    rw [if_neg hni, if_pos ht]
    split
    · rename_i heq2
      rw [hc] at heq2
      simp at heq2
    · rename_i l2x heq2
      rw [hc] at heq2
      injection heq2 with hB2
      subst hB2
      rfl

/-- `parseArgs` when the first peeked token is not `]` and the first
argument parses: enter the comma loop. -/
theorem parseArgs_first {l l1 l2 : GoLexer} {t : Token} {e : Expression}
    (hm : MustPeek l 1 = some (t, l1)) (ht : t.typ ≠ .squareBracketClose)
    (hpe : parseExpression l1 = .ok e l2) :
    parseArgs l = parseArgsLoop (.cons e .nil) l2 := by
  unfold parseExpression at hpe
  unfold parseArgs parseArgsLoop
  rw [parseArgsB.eq_def]
  split
  · rename_i heq
    rw [hm] at heq
    simp at heq
  · rename_i t2 l12 heq
    rw [hm] at heq
    injection heq with hA
    injection hA with hB hC
    subst hB
    subst hC
    rw [if_pos ht]
    rcases h3 : parseExpressionB l1 with ⟨r, hb⟩
    rw [h3] at hpe
    simp at hpe
    subst hpe
    rfl

/-- `parseArgs` when the first peeked token is `]`: empty list, nothing
consumed. -/
theorem parseArgs_close {l l1 : GoLexer} {t : Token}
    (hm : MustPeek l 1 = some (t, l1)) (ht : t.typ = .squareBracketClose) :
    parseArgs l = .ok .nil l1 := by
  unfold parseArgs
  rw [parseArgsB.eq_def]
  split
  · rename_i heq
    rw [hm] at heq
    simp at heq
  · rename_i t2 l12 heq
    rw [hm] at heq
    injection heq with hA
    injection hA with hB hC
    subst hB
    subst hC
    rw [if_neg (by simp [ht])]

/-- The comma loop ends at any non-comma token, returning the arguments
collected so far. -/
theorem parseArgsLoop_done {args : ExprList} {l l1 : GoLexer} {t : Token}
    (hp : Peek l 1 = (some t, l1)) (ht : t.typ ≠ .comma) :
    parseArgsLoop args l = .ok args l1 := by
  unfold parseArgsLoop
  rw [parseArgsLoopB.eq_def]
  split
  · rename_i heq
    rw [hp] at heq
    simp at heq
  · rename_i t2 l12 heq
    rw [hp] at heq
    injection heq with hA hB
    injection hA with hC
    subst hB
    subst hC
    rw [if_neg ht]

/-- `Peek` is idempotent: peeking again with the same count from the
lexer a `Peek` returned changes nothing (the queue is already full). -/
theorem Peek_idem {l l2 : GoLexer} {r : TokenResult} {count : Nat}
    (h : Peek l count = (r, l2)) : Peek l2 count = (r, l2) := by
  have h2 : l2 = fill l count := by
    have hsnd := congrArg Prod.snd h
    simpa [Peek] using hsnd.symm
  have hlen : count ≤ l2.tokenQueue.length := by
    rw [h2, fill_queue_length]
    omega
  have hfst : l2.tokenQueue.getD (count - 1) none = r := by
    have hf := congrArg Prod.fst h
    rw [h2]
    simpa [Peek] using hf
  simp [Peek, fill_of_enough hlen]
  simpa [List.getD] using hfst

/-- `expectToken` on a lexer whose queue starts with a matching token
succeeds with that token and just pops it. -/
theorem expectToken_head {l : GoLexer} {t : Token} {q : List TokenResult}
    {tt : TokenType}
    (hq : l.tokenQueue = some t :: q) (ht : t.typ = tt) :
    expectToken tt l = (.ok t, { l with tokenQueue := q }) := by
  unfold expectToken Next
  rw [hq]
  simp [ht]

theorem parseExpression_bound (l : GoLexer) :
    StrictShrink (lexMeasure l) (parseExpression l) :=
  (parseExpressionB l).property

/-- Go `BlockStatement` (`types.go`): the ordered sequence of top-level
expressions.  It is the only `Statement` kind. -/
structure BlockStatement where
  expressions : ExprList
deriving DecidableEq, Repr

/-- Outcome of Go `Parser.Parse`: a block, or a `log.Fatal` abort. -/
inductive ParseOutcome where
  | ok (b : BlockStatement)
  | fatal (e : GoError)
deriving DecidableEq, Repr

/-- The loop of Go `Parser.Parse`: parse `Call`s one by one; an `io.EOF`
error is the graceful end of the program, any other error is
`log.Fatal`ed. -/
def parseLoop (acc : ExprList) (l : GoLexer) : ParseOutcome :=
  match h : parseCall l with
  | .ok e l1 => parseLoop (acc.snoc e) l1
  | .err .eof _ => .ok ⟨acc⟩
  | .err e _ => .fatal e
  | .fatal e => .fatal e
termination_by lexMeasure l
decreasing_by
  have hb := parseCall_bound l
  rw [h] at hb
  simpa [StrictShrink] using hb

/-- Go `Parser.Parse`: top-level entry, starting from an empty block. -/
def Parse (l : GoLexer) : ParseOutcome := parseLoop .nil l

/-! ## The python printer (`internal/printer/printers/python/python.go`)

The printer walks the AST; the two booleans on the Go `Printer` object
(`usingAssocBuiltin`, `usingPrintBuiltin`) are threaded through
explicitly.  A Go runtime panic (slice index out of range, failed type
assertion) or `log.Fatalf` aborts the process; both are modelled as
`none`. -/

/-- The printer's injection flags. -/
structure PFlags where
  usingAssocBuiltin : Bool
  usingPrintBuiltin : Bool
deriving DecidableEq, Repr

/-- Go `printAssocBuiltin`. -/
def printAssocBuiltin : String :=
  "def builtin__assoc(k, v, obj):\n  obj[k] = v\n  return obj\n"

/-- Go `printPrintBuiltin`. -/
def printPrintBuiltin : String :=
  "def builtin__print(*args, **kwargs):\n  print(*args, **kwargs)\n  return args[0]\n"

def ExprList.length : ExprList → Nat
  | .nil => 0
  | .cons _ es => es.length + 1

mutual

/-- Go `printExpression`.  For a `CallExpression` all arguments are
rendered first (the `for _, a := range e.Args` loop), then the call name
is compared — in source order — against the special forms, falling
through to the generic `name(arg,arg,...)` rendering.  The bodies of the
`Let`, `Cond` and `Def` special forms are outlined into the helper
functions below, one per nesting level of the Go code. -/
def printExpression (fl : PFlags) (e : Expression) : Option (String × PFlags) :=
  match e with
  | .call callName args =>
    match printExpressionList fl args with
    | none => none
    | some (argsStrs, fl1) =>
      if callName = "Print" then
        some ("builtin__print(" ++ String.intercalate "," argsStrs ++ ")",
          { fl1 with usingPrintBuiltin := true })
      else if callName = "Let" then
        match printLetLoop fl1 args with
        | none => none
        | some (params, body, fl2) =>
          some ("lambda " ++ String.intercalate ", " params ++ ": " ++ body, fl2)
      else if callName = "HashMap" then
        some ("dict()", fl1)
      else if callName = "Map" then
        match argsStrs with
        | [] => none
        | a0 :: restS =>
          some ("map(" ++ a0 ++ ", " ++ String.intercalate ", " restS ++ ")", fl1)
      else if callName = "List" then
        some ("[" ++ String.intercalate ", " argsStrs ++ "]", fl1)
      else if callName = "Call" then
        match argsStrs with
        | [] => none
        | a0 :: restS =>
          some ("((" ++ a0 ++ ")(" ++ String.intercalate "," restS ++ "))", fl1)
      else if callName = "Assoc" then
        match argsStrs with
        | a0 :: a1 :: a2 :: _ =>
          some ("builtin__assoc(" ++ a0 ++ ", " ++ a1 ++ ", " ++ a2 ++ ")",
            { fl1 with usingAssocBuiltin := true })
        | _ => none
      else if callName = "Has" then
        match argsStrs with
        | a0 :: a1 :: _ =>
          some ("(" ++ a1 ++ ".get(" ++ a0 ++ ", None) != None)",
            { fl1 with usingAssocBuiltin := true })
        | _ => none
      else if callName = "Get" then
        match argsStrs with
        | a0 :: a1 :: _ =>
          some ("(" ++ a1 ++ ".get(" ++ a0 ++ "))",
            { fl1 with usingAssocBuiltin := true })
        | _ => none
      else if callName = "Cond" then
        printCond fl1 args
      else if callName = "Def" then
        printDef callName argsStrs fl1 args
      else if callName = "Inc" then
        some (String.intercalate "," (argsStrs.map (fun a => a ++ "+1")), fl1)
      else
        some (callName ++ "(" ++ String.intercalate "," argsStrs ++ ")", fl1)
  | .literalNumber v => some (v, fl)
  | .variableReference v => some (v, fl)
  | .assignment _ _ => some ("<unknown>", fl)

/-- The argument-rendering loop at the head of the `CallExpression` case
(also the loop of `printStatement`): render each expression in order,
threading the flags. -/
def printExpressionList (fl : PFlags) (es : ExprList) : Option (List String × PFlags) :=
  match es with
  | .nil => some ([], fl)
  | .cons e rest =>
    match printExpression fl e with
    | none => none
    | some (s, fl2) =>
      match printExpressionList fl2 rest with
      | none => none
      | some (ss, fl3) => some (s :: ss, fl3)

/-- The `Cond` special form: Go renders `e.Args[1]`, `e.Args[0]` and
`e.Args[2]` in that order (`fmt.Sprintf` evaluates its arguments left to
right); a missing argument is a slice-index panic (`none`). -/
def printCond (fl : PFlags) (args : ExprList) : Option (String × PFlags) :=
  match args with
  | .nil => none
  | .cons a0 rest1 =>
    match printCondSecond fl rest1 with
    | none => none
    | some (r1, fl2) =>
      match printExpression fl2 a0 with
      | none => none
      | some (r0, fl3) =>
        match printCondThird fl3 rest1 with
        | none => none
        | some (r2, fl4) => some (r1 ++ " if " ++ r0 ++ " else " ++ r2, fl4)

/-- `e.Args[1]` of a `Cond` — the head of the tail — rendered (`none`
is Go's index panic when it is missing). -/
def printCondSecond (fl : PFlags) (rest1 : ExprList) : Option (String × PFlags) :=
  match rest1 with
  | .nil => none
  | .cons a1 _ => printExpression fl a1

/-- `e.Args[2]` of a `Cond` — the second member of the tail —
rendered. -/
def printCondThird (fl : PFlags) (rest1 : ExprList) : Option (String × PFlags) :=
  match rest1 with
  | .nil => none
  | .cons _ rest2 => printCondSecond fl rest2

/-- The `Def` special form (Go's `if e.Call == "Def"` block): dispatch
on the shape of `e.Args[0]`; an empty argument list is Go's
`e.Args[0]` index panic. -/
def printDef (callName : String) (argsStrs : List String) (fl : PFlags)
    (args : ExprList) : Option (String × PFlags) :=
  match args with
  | .nil => none
  | .cons first restArgs =>
    match first with
    | .variableReference defname =>
      printDefNamed callName argsStrs defname fl restArgs
    | .assignment _ _ => printDefAssign fl first
    | _ => some (callName ++ "(" ++ String.intercalate "," argsStrs ++ ")", fl)

/-- `Def` whose first argument is a name: with at least two further
arguments (`len(e.Args) > 2`) it renders `name = lambda params: body`,
otherwise Go falls through to the generic call rendering. -/
def printDefNamed (callName : String) (argsStrs : List String) (defname : String)
    (fl : PFlags) (restArgs : ExprList) : Option (String × PFlags) :=
  match restArgs with
  | .nil => some (callName ++ "(" ++ String.intercalate "," argsStrs ++ ")", fl)
  | .cons a1 rest2 =>
    match rest2 with
    | .nil => some (callName ++ "(" ++ String.intercalate "," argsStrs ++ ")", fl)
    | .cons _ _ =>
      match printDefArg fl a1 with
      | none => none
      | some (params, fl2) =>
        match printDefBody fl2 rest2 with
        | none => none
        | some (body, fl3) =>
          some (defname ++ " = lambda " ++ String.intercalate ", " params
            ++ ": " ++ body, fl3)

/-- The parameter list of a named `Def`: `e.Args[1]` contributes
parameters only when it is an `Args[...]` call. -/
def printDefArg (fl : PFlags) (a1 : Expression) : Option (List String × PFlags) :=
  match a1 with
  | .call paramName paramArgs =>
    if paramName = "Args" then printDefParams fl paramArgs
    else some ([], fl)
  | _ => some ([], fl)

/-- The body of a named `Def`: `e.Args[2]`, the head of the remaining
arguments, rendered. -/
def printDefBody (fl : PFlags) (rest2 : ExprList) : Option (String × PFlags) :=
  match rest2 with
  | .nil => none
  | .cons a2 _ => printExpression fl a2

/-- `Def` whose first argument is an assignment: rendered as
`lhs = rhs` (Go's type assertion on the left-hand side panics — `none` —
when it is not a variable reference). -/
def printDefAssign (fl : PFlags) (first : Expression) : Option (String × PFlags) :=
  match first with
  | .assignment lhs rhs =>
    match lhs with
    | .variableReference v =>
      match printExpression fl rhs with
      | none => none
      | some (r, fl2) => some (v ++ " = " ++ r, fl2)
    | _ => none
  | _ => none

/-- The `Let` rendering: every argument before the last is a binding,
the last argument is the body.  `Let` with no arguments panics
(`e.Args[len(e.Args)-1]` with negative index). -/
def printLetLoop (fl : PFlags) (es : ExprList) :
    Option (List String × String × PFlags) :=
  match es with
  | .nil => none
  | .cons e rest =>
    match rest with
    | .nil =>
      match printExpression fl e with
      | none => none
      | some (body, fl2) => some ([], body, fl2)
    | .cons _ _ =>
      match printLetBinding fl e with
      | none => none
      | some (piece, fl2) =>
        match printLetLoop fl2 rest with
        | none => none
        | some (params, body, fl3) => some (piece ++ params, body, fl3)

/-- One binding of a `Let` (an argument before the last): an assignment
gives a defaulted parameter, a bare name a plain one, anything else is
skipped. -/
def printLetBinding (fl : PFlags) (e : Expression) : Option (List String × PFlags) :=
  match e with
  | .assignment lhs rhs =>
    match lhs with
    | .variableReference v =>
      match printExpression fl rhs with
      | none => none
      | some (value, fl2) => some ([v ++ " = " ++ value], fl2)
    | _ => none
  | .variableReference v => some ([v], fl)
  | _ => some ([], fl)

/-- The parameter loop of the `Def` special form, over the arguments of
the `Args[...]` parameter list. -/
def printDefParams (fl : PFlags) (es : ExprList) : Option (List String × PFlags) :=
  match es with
  | .nil => some ([], fl)
  | .cons arg rest =>
    match printDefParam fl arg with
    | none => none
    | some (piece, fl2) =>
      match printDefParams fl2 rest with
      | none => none
      | some (params, fl3) => some (piece ++ params, fl3)

/-- One entry of a `Def` parameter list: a bare name, a nested
`Args[...]` list (members rendered and spliced flat), `HashMap[name]`
(rejecting more than one argument with `log.Fatalf`), an assignment
default; anything else is skipped. -/
def printDefParam (fl : PFlags) (arg : Expression) : Option (List String × PFlags) :=
  match arg with
  | .variableReference v => some ([v], fl)
  | .call subName subArgs =>
    if subName = "Args" then
      match printExpressionList fl subArgs with
      | none => none
      | some (subparams, fl2) => some (subparams, fl2)
    else if subName = "HashMap" then
      if subArgs.length > 1 then none
      else
        match subArgs with
        | .cons (.variableReference v) _ => some ([v ++ " = dict()"], fl)
        | _ => none
    else some ([], fl)
  | .assignment lhs rhs =>
    match lhs with
    | .variableReference v =>
      match printExpression fl rhs with
      | none => none
      | some (r, fl2) => some ([v ++ " = " ++ r], fl2)
    | _ => none
  | _ => some ([], fl)

end

/-- Hand-stated unfold equation for `printExpression` on a call node
(the auto-generated equations exceed the equation compiler's limits on
this body). -/
theorem printExpression_call_eq (fl : PFlags) (f : String) (args : ExprList) :
    printExpression fl (.call f args) =
      (match printExpressionList fl args with
      | none => none
      | some (argsStrs, fl1) =>
        if f = "Print" then
          some ("builtin__print(" ++ String.intercalate "," argsStrs ++ ")",
            { fl1 with usingPrintBuiltin := true })
        else if f = "Let" then
          match printLetLoop fl1 args with
          | none => none
          | some (params, body, fl2) =>
            some ("lambda " ++ String.intercalate ", " params ++ ": " ++ body, fl2)
        else if f = "HashMap" then
          some ("dict()", fl1)
        else if f = "Map" then
          match argsStrs with
          | [] => none
          | a0 :: restS =>
            some ("map(" ++ a0 ++ ", " ++ String.intercalate ", " restS ++ ")", fl1)
        else if f = "List" then
          some ("[" ++ String.intercalate ", " argsStrs ++ "]", fl1)
        else if f = "Call" then
          match argsStrs with
          | [] => none
          | a0 :: restS =>
            some ("((" ++ a0 ++ ")(" ++ String.intercalate "," restS ++ "))", fl1)
        else if f = "Assoc" then
          match argsStrs with
          | a0 :: a1 :: a2 :: _ =>
            some ("builtin__assoc(" ++ a0 ++ ", " ++ a1 ++ ", " ++ a2 ++ ")",
              { fl1 with usingAssocBuiltin := true })
          | _ => none
        else if f = "Has" then
          match argsStrs with
          | a0 :: a1 :: _ =>
            some ("(" ++ a1 ++ ".get(" ++ a0 ++ ", None) != None)",
              { fl1 with usingAssocBuiltin := true })
          | _ => none
        else if f = "Get" then
          match argsStrs with
          | a0 :: a1 :: _ =>
            some ("(" ++ a1 ++ ".get(" ++ a0 ++ "))",
              { fl1 with usingAssocBuiltin := true })
          | _ => none
        else if f = "Cond" then
          printCond fl1 args
        else if f = "Def" then
          printDef f argsStrs fl1 args
        else if f = "Inc" then
          some (String.intercalate "," (argsStrs.map (fun a => a ++ "+1")), fl1)
        else
          some (f ++ "(" ++ String.intercalate "," argsStrs ++ ")", fl1)) := rfl

/-- Go `printStatement`: render the block's expressions in order and
join them with newlines.  (`BlockStatement` is the only `Statement`
kind; the Go `default: return "<unknown>"` arm is unreachable.) -/
def printStatement (fl : PFlags) (s : BlockStatement) : Option (String × PFlags) :=
  match printExpressionList fl s.expressions with
  | none => none
  | some (strs, fl2) => some (String.intercalate "\n" strs, fl2)

/-- Go `Printer.String`: render the block, then prepend the assoc helper
if it was used, then prepend the print helper if it was used. -/
def printerString (ast : BlockStatement) : Option String :=
  match printStatement { usingAssocBuiltin := false, usingPrintBuiltin := false } ast with
  | none => none
  | some (st, fl) =>
    let st1 := if fl.usingAssocBuiltin then printAssocBuiltin ++ "\n" ++ st else st
    some (if fl.usingPrintBuiltin then printPrintBuiltin ++ "\n" ++ st1 else st1)

/-- The twelve call names `printExpression` treats as special forms, in
the order the `if`-chain tests them. -/
def specialName (s : String) : Bool :=
  s = "Print" || s = "Let" || s = "HashMap" || s = "Map" || s = "List" ||
  s = "Call" || s = "Assoc" || s = "Has" || s = "Get" || s = "Cond" ||
  s = "Def" || s = "Inc"

mutual

/-- No call anywhere in the expression uses a special-form name. -/
def Expression.noSpecial : Expression → Bool
  | .variableReference _ => true
  | .literalNumber _ => true
  | .call f args => !specialName f && ExprList.noSpecialL args
  | .assignment lhs rhs => Expression.noSpecial lhs && Expression.noSpecial rhs

/-- No call anywhere in the list uses a special-form name. -/
def ExprList.noSpecialL : ExprList → Bool
  | .nil => true
  | .cons e es => Expression.noSpecial e && ExprList.noSpecialL es

end

mutual

/-- An expression free of special-form call names always renders, with
the injection flags passed through unchanged. -/
theorem printExpression_noSpecial (e : Expression) (fl : PFlags)
    (h : Expression.noSpecial e = true) :
    ∃ s, printExpression fl e = some (s, fl) := by
  match e with
  | .variableReference v => exact ⟨v, rfl⟩
  | .literalNumber v => exact ⟨v, rfl⟩
  | .assignment lhs rhs => exact ⟨"<unknown>", rfl⟩
  | .call f args =>
    simp only [Expression.noSpecial, Bool.and_eq_true, Bool.not_eq_true'] at h
    obtain ⟨hf, hargs⟩ := h
    obtain ⟨ss, hss⟩ := printExpressionList_noSpecial args fl hargs
    simp only [specialName, Bool.or_eq_false_iff, decide_eq_false_iff_not] at hf
    obtain ⟨⟨⟨⟨⟨⟨⟨⟨⟨⟨⟨h1, h2⟩, h3⟩, h4⟩, h5⟩, h6⟩, h7⟩, h8⟩, h9⟩, h10⟩, h11⟩, h12⟩ := hf
    refine ⟨f ++ "(" ++ String.intercalate "," ss ++ ")", ?_⟩
    rw [printExpression_call_eq]
    simp only [hss]
    simp only [if_neg h1, if_neg h2, if_neg h3, if_neg h4, if_neg h5, if_neg h6,
      if_neg h7, if_neg h8, if_neg h9, if_neg h10, if_neg h11, if_neg h12]

/-- A list of expressions free of special-form call names always
renders, with the injection flags passed through unchanged. -/
theorem printExpressionList_noSpecial (es : ExprList) (fl : PFlags)
    (h : ExprList.noSpecialL es = true) :
    ∃ ss, printExpressionList fl es = some (ss, fl) := by
  match es with
  | .nil => exact ⟨[], rfl⟩
  | .cons e rest =>
    simp only [ExprList.noSpecialL, Bool.and_eq_true] at h
    obtain ⟨he, hrest⟩ := h
    obtain ⟨s, hs⟩ := printExpression_noSpecial e fl he
    obtain ⟨ss, hss⟩ := printExpressionList_noSpecial rest fl hrest
    refine ⟨s :: ss, ?_⟩
    simp [printExpressionList, hs, hss]

end

/-! ### Line structure of the rendered output

To place and count the helper snippet we track the line discipline of
rendered strings: no statement rendering contains a newline, and none
starts with two spaces (a leading space arises only from a `Cond` whose
first piece rendered empty, and is then followed by the `i` of
`" if "`).  The lines of the assoc helper all start with either `def`
or two spaces, so no rendered statement line can coincide with one of
its indented lines. -/

/-- No newline character in the list. -/
def noNLL (cs : List Char) : Bool := cs.all (fun c => !(c = '\x0a'))

/-- The list is empty, starts with a non-space, or starts with the
space-then-`i` of a `Cond` rendering whose first piece was empty. -/
def startOKL : List Char → Bool
  | [] => true
  | c :: rest =>
    !(c = ' ') || (match rest with | c2 :: _ => c2 = 'i' | [] => false)

/-- The line discipline of a rendered statement. -/
def lineSafe (s : String) : Bool := noNLL s.data && startOKL s.data

/-- A token-derived atom: nonempty and alphanumeric (the lexer's name
tokens are letters, its number tokens digits). -/
def cleanAtom (s : String) : Bool :=
  !(s = "") && s.data.all (fun c => c.isAlphanum)

mutual

/-- Every name and number embedded in the expression is a clean atom —
the shape of every AST the lexer and parser can deliver. -/
def Expression.cleanE : Expression → Bool
  | .variableReference v => cleanAtom v
  | .literalNumber v => cleanAtom v
  | .call f args => cleanAtom f && ExprList.cleanL args
  | .assignment lhs rhs => Expression.cleanE lhs && Expression.cleanE rhs

/-- Every name and number embedded in the list is a clean atom. -/
def ExprList.cleanL : ExprList → Bool
  | .nil => true
  | .cons e es => Expression.cleanE e && ExprList.cleanL es

end

/-- Every name and number embedded in the block is a clean atom. -/
def BlockStatement.cleanB (b : BlockStatement) : Bool :=
  b.expressions.cleanL

/-- Split a character list at every newline (always at least one
piece, like Python's `str.split`). -/
def splitNL : List Char → List (List Char)
  | [] => [[]]
  | c :: rest =>
    if c = '\x0a' then [] :: splitNL rest
    else (c :: (splitNL rest).headI) :: (splitNL rest).tail

theorem splitNL_ne_nil (cs : List Char) : splitNL cs ≠ [] := by
  match cs with
  | [] => simp [splitNL]
  | c :: rest =>
    simp only [splitNL]
    split <;> simp

theorem splitNL_append (a b : List Char) :
    splitNL (a ++ '\x0a' :: b) = splitNL a ++ splitNL b := by
  induction a with
  | nil => simp [splitNL]
  | cons c rest ih =>
    show splitNL (c :: (rest ++ '\x0a' :: b)) = _
    by_cases hc : c = '\x0a'
    · subst hc
      simp [splitNL, ih]
    · obtain ⟨l, ls, h⟩ : ∃ l ls, splitNL rest = l :: ls := by
        match h2 : splitNL rest with
        | [] => exact absurd h2 (splitNL_ne_nil rest)
        | l :: ls => exact ⟨l, ls, rfl⟩
      simp [splitNL, hc, ih, h]

theorem splitNL_of_noNL {cs : List Char} (h : noNLL cs = true) :
    splitNL cs = [cs] := by
  induction cs with
  | nil => rfl
  | cons c rest ih =>
    simp [noNLL] at h
    obtain ⟨hc, hrest⟩ := h
    have h2 := ih (by simp [noNLL]; exact hrest)
    simp [splitNL, hc, h2]

theorem noNLL_append (a b : List Char) :
    noNLL (a ++ b) = (noNLL a && noNLL b) := by
  simp [noNLL]

theorem startOK_append {a : List Char} (b : List Char)
    (ha : startOKL a = true) (hb : a = [] → startOKL b = true) :
    startOKL (a ++ b) = true := by
  match a with
  | [] => simpa using hb rfl
  | [c] =>
    simp [startOKL] at ha
    simp [startOKL, ha]
  | c :: c2 :: rest =>
    simp [startOKL] at ha ⊢
    exact ha

theorem intercalate_go_data (s : String) :
    ∀ (l : List String) (acc b : String),
      (String.intercalate.go acc s (b :: l)).data =
        acc.data ++ s.data ++ (String.intercalate.go b s l).data := by
  intro l
  induction l with
  | nil =>
    intro acc b
    simp [String.intercalate.go]
  | cons c cs ih =>
    intro acc b
    show (String.intercalate.go (acc ++ s ++ b) s (c :: cs)).data = _
    rw [ih (acc ++ s ++ b) c, ih b c]
    simp

theorem intercalate_data_two (s a b : String) (l : List String) :
    (String.intercalate s (a :: b :: l)).data =
      a.data ++ s.data ++ (String.intercalate s (b :: l)).data := by
  simp only [String.intercalate]
  exact intercalate_go_data s l a b

theorem intercalate_one (s a : String) : String.intercalate s [a] = a := rfl

theorem noNLL_intercalate (sep : String) (hsep : noNLL sep.data = true)
    (l : List String) (h : ∀ x ∈ l, noNLL x.data = true) :
    noNLL (String.intercalate sep l).data = true := by
  induction l with
  | nil => rfl
  | cons a t ih =>
    match t with
    | [] => simpa [intercalate_one] using h a (by simp)
    | b :: r =>
      rw [intercalate_data_two, noNLL_append, noNLL_append]
      have ha := h a (by simp)
      have ht := ih (fun x hx => h x (by simp [hx]))
      simp [ha, hsep, ht]

/-- The indented middle line of the assoc helper, used as the marker
for counting helper occurrences. -/
def assocMarker : List Char := "  obj[k] = v".data

theorem lineSafe_ne_marker {s : String} (h : lineSafe s = true) :
    s.data ≠ assocMarker := by
  intro heq
  rw [lineSafe, heq] at h
  simp [assocMarker, noNLL, startOKL] at h

theorem count_marker_lines (strs : List String)
    (h : ∀ s ∈ strs, lineSafe s = true) :
    (splitNL (String.intercalate "\x0a" strs).data).count assocMarker = 0 := by
  induction strs with
  | nil => decide
  | cons a t ih =>
    match t with
    | [] =>
      rw [intercalate_one]
      have ha := h a (by simp)
      rw [splitNL_of_noNL (by simp [lineSafe] at ha; exact ha.1)]
      simp [List.count_cons, lineSafe_ne_marker ha]
    | b :: r =>
      rw [intercalate_data_two]
      have ha := h a (by simp)
      have hsplit := splitNL_append a.data (String.intercalate "\x0a" (b :: r)).data
      simp only [List.append_assoc] at hsplit ⊢
      show (splitNL (a.data ++ ('\x0a' :: (String.intercalate "\x0a" (b :: r)).data))).count assocMarker = 0
      rw [hsplit, List.count_append]
      rw [splitNL_of_noNL (by simp [lineSafe] at ha; exact ha.1)]
      have ht := ih (fun x hx => h x (by simp [hx]))
      simp [List.count_cons, lineSafe_ne_marker ha, ht]

theorem lineSafe_of_cleanAtom {v : String} (h : cleanAtom v = true) :
    lineSafe v = true := by
  simp [cleanAtom] at h
  obtain ⟨-, h2⟩ := h
  simp [lineSafe, noNLL, startOKL]
  constructor
  · intro c hc
    intro heq
    have := h2 c hc
    rw [heq] at this
    simp [Char.isAlphanum, Char.isAlpha, Char.isDigit, Char.isUpper,
      Char.isLower] at this
  · match hv : v.data with
    | [] => simp
    | c :: rest =>
      have := h2 c (by rw [hv]; exact List.mem_cons_self c rest)
      have hc : ¬(c = ' ') := by
        intro heq
        rw [heq] at this
        simp [Char.isAlphanum, Char.isAlpha, Char.isDigit, Char.isUpper,
          Char.isLower] at this
      simp [hc]

theorem noNL_of_lineSafe {s : String} (h : lineSafe s = true) :
    noNLL s.data = true := by
  rw [lineSafe, Bool.and_eq_true] at h
  exact h.1

theorem startOK_of_lineSafe {s : String} (h : lineSafe s = true) :
    startOKL s.data = true := by
  rw [lineSafe, Bool.and_eq_true] at h
  exact h.2

/-- Assemble `lineSafe` of a compound rendering from its leading piece
and the rest of its characters. -/
theorem lineSafe_parts {s : String} (p x : List Char)
    (heq : s.data = p ++ x)
    (hpn : noNLL p = true) (hps : startOKL p = true)
    (hpe : p = [] → startOKL x = true)
    (hx : noNLL x = true) : lineSafe s = true := by
  rw [lineSafe, heq, noNLL_append]
  simp only [hpn, hx, Bool.and_eq_true, true_and, Bool.true_and]
  exact startOK_append x hps hpe

theorem data_ne_nil_of_cleanAtom {v : String} (h : cleanAtom v = true) :
    v.data ≠ [] := by
  simp [cleanAtom] at h
  intro hh
  exact h.1 (by cases v with | mk d => simp at hh; simp [hh])

theorem noNLL_of_cleanAtom {v : String} (h : cleanAtom v = true) :
    noNLL v.data = true :=
  noNL_of_lineSafe (lineSafe_of_cleanAtom h)

theorem startOKL_of_cleanAtom {v : String} (h : cleanAtom v = true) :
    startOKL v.data = true :=
  startOK_of_lineSafe (lineSafe_of_cleanAtom h)

theorem startOKL_cons {c : Char} (rest : List Char) (hc : ¬(c = ' ')) :
    startOKL (c :: rest) = true := by
  simp [startOKL, hc]

/-- `lineSafe` of the `Inc` rendering. -/
theorem lineSafe_inc (ss : List String) (h : ∀ x ∈ ss, lineSafe x = true) :
    lineSafe (String.intercalate ","
      (ss.map (fun a => a ++ "+1"))) = true := by
  match ss with
  | [] => decide
  | s0 :: rest =>
    have h0 := h s0 (by simp)
    have htail : noNLL (String.intercalate ","
        (rest.map (fun a => a ++ "+1"))).data = true := by
      refine noNLL_intercalate "," (by decide) _ ?_
      intro x hx
      simp only [List.mem_map] at hx
      obtain ⟨a, ha, rfl⟩ := hx
      rw [String.data_append, noNLL_append,
        noNL_of_lineSafe (h a (by simp [ha]))]
      decide
    match rest with
    | [] =>
      rw [List.map_cons, List.map_nil, intercalate_one]
      refine lineSafe_parts s0.data ("+1").data (by simp [String.data_append])
        (noNL_of_lineSafe h0) (startOK_of_lineSafe h0)
        (fun _ => by decide) (by decide)
    | b :: r =>
      refine lineSafe_parts s0.data
        (("+1").data ++ (",").data ++ (String.intercalate ","
          ((b :: r).map (fun a => a ++ "+1"))).data) ?_
        (noNL_of_lineSafe h0) (startOK_of_lineSafe h0) (fun _ => ?_) ?_
      · simp only [List.map_cons]
        rw [intercalate_data_two]
        simp [String.data_append]
      · rw [show ("+1").data = ['+', '1'] from rfl]
        rw [List.cons_append]
        exact startOKL_cons _ (by decide)
      · rw [noNLL_append, noNLL_append, htail]
        decide

mutual

/-- Every statement rendered from a clean expression obeys the line
discipline. -/
theorem printExpression_safe (e : Expression) (fl : PFlags) (s : String)
    (fl2 : PFlags) (hc : Expression.cleanE e = true)
    (h : printExpression fl e = some (s, fl2)) : lineSafe s = true := by
  match e with
  | .variableReference v =>
    rw [show printExpression fl (.variableReference v) = some (v, fl) from rfl] at h
    simp at h
    obtain ⟨h1, -⟩ := h
    subst h1
    exact lineSafe_of_cleanAtom (by simpa [Expression.cleanE] using hc)
  | .literalNumber v =>
    rw [show printExpression fl (.literalNumber v) = some (v, fl) from rfl] at h
    simp at h
    obtain ⟨h1, -⟩ := h
    subst h1
    exact lineSafe_of_cleanAtom (by simpa [Expression.cleanE] using hc)
  | .assignment lhs rhs =>
    rw [show printExpression fl (.assignment lhs rhs) =
      some ("<unknown>", fl) from rfl] at h
    simp at h
    obtain ⟨h1, -⟩ := h
    subst h1
    decide
  | .call f args =>
    simp only [Expression.cleanE, Bool.and_eq_true] at hc
    obtain ⟨hcf, hca⟩ := hc
    rw [printExpression_call_eq] at h
    match hpl : printExpressionList fl args with
    | none => simp only [hpl] at h; simp at h
    | some (ss, fl1) =>
      simp only [hpl] at h
      have hss := printExpressionList_safe args fl ss fl1 hca hpl
      have hJ : ∀ sep : String, noNLL sep.data = true →
          noNLL (String.intercalate sep ss).data = true := fun sep hsep =>
        noNLL_intercalate sep hsep ss (fun x hx => noNL_of_lineSafe (hss x hx))
      by_cases h1 : f = "Print"
      · rw [if_pos h1] at h
        simp at h
        obtain ⟨h1s, -⟩ := h
        subst h1s
        refine lineSafe_parts ("builtin__print(").data
          ((String.intercalate "," ss).data ++ (")").data)
          (by simp [String.data_append]) (by decide) (by decide)
          (fun hh => absurd hh (by decide)) ?_
        rw [noNLL_append, hJ "," (by decide)]
        decide
      · rw [if_neg h1] at h
        by_cases h2 : f = "Let"
        · rw [if_pos h2] at h
          match hll : printLetLoop fl1 args with
          | none => simp only [hll] at h; simp at h
          | some (params, body, flL) =>
            simp only [hll] at h
            simp at h
            obtain ⟨hs, -⟩ := h
            subst hs
            obtain ⟨hparams, hbody⟩ :=
              printLetLoop_safe args fl1 params body flL hca hll
            refine lineSafe_parts ("lambda ").data
              ((String.intercalate ", " params).data ++ (": ").data ++ body.data)
              (by simp [String.data_append]) (by decide) (by decide)
              (fun hh => absurd hh (by decide)) ?_
            rw [noNLL_append, noNLL_append,
              noNLL_intercalate ", " (by decide) params
                (fun x hx => noNL_of_lineSafe (hparams x hx)),
              noNL_of_lineSafe hbody]
            decide
        · rw [if_neg h2] at h
          by_cases h3 : f = "HashMap"
          · rw [if_pos h3] at h
            simp at h
            obtain ⟨hs, -⟩ := h
            subst hs
            decide
          · rw [if_neg h3] at h
            by_cases h4 : f = "Map"
            · rw [if_pos h4] at h
              rcases ss with _ | ⟨a0, restS⟩
              · simp at h
              · simp at h
                obtain ⟨hs, -⟩ := h
                subst hs
                refine lineSafe_parts ("map(").data
                  (a0.data ++ (", ").data ++
                    (String.intercalate ", " restS).data ++ (")").data)
                  (by simp [String.data_append]) (by decide) (by decide)
                  (fun hh => absurd hh (by decide)) ?_
                rw [noNLL_append, noNLL_append, noNLL_append,
                  noNL_of_lineSafe (hss a0 (by simp)),
                  noNLL_intercalate ", " (by decide) restS
                    (fun x hx => noNL_of_lineSafe (hss x (by simp [hx])))]
                decide
            · rw [if_neg h4] at h
              by_cases h5 : f = "List"
              · rw [if_pos h5] at h
                simp at h
                obtain ⟨hs, -⟩ := h
                subst hs
                refine lineSafe_parts ("[").data
                  ((String.intercalate ", " ss).data ++ ("]").data)
                  (by simp [String.data_append]) (by decide) (by decide)
                  (fun hh => absurd hh (by decide)) ?_
                rw [noNLL_append, hJ ", " (by decide)]
                decide
              · rw [if_neg h5] at h
                by_cases h6 : f = "Call"
                · rw [if_pos h6] at h
                  rcases ss with _ | ⟨a0, restS⟩
                  · simp at h
                  · simp at h
                    obtain ⟨hs, -⟩ := h
                    subst hs
                    refine lineSafe_parts ("((").data
                      (a0.data ++ (")(").data ++
                        (String.intercalate "," restS).data ++ ("))").data)
                      (by simp [String.data_append]) (by decide) (by decide)
                      (fun hh => absurd hh (by decide)) ?_
                    rw [noNLL_append, noNLL_append, noNLL_append,
                      noNL_of_lineSafe (hss a0 (by simp)),
                      noNLL_intercalate "," (by decide) restS
                        (fun x hx => noNL_of_lineSafe (hss x (by simp [hx])))]
                    decide
                · rw [if_neg h6] at h
                  by_cases h7 : f = "Assoc"
                  · rw [if_pos h7] at h
                    rcases ss with _ | ⟨a0, _ | ⟨a1, _ | ⟨a2, restS⟩⟩⟩ <;> simp at h
                    obtain ⟨hs, -⟩ := h
                    subst hs
                    refine lineSafe_parts ("builtin__assoc(").data
                      (a0.data ++ (", ").data ++ a1.data ++ (", ").data ++
                        a2.data ++ (")").data)
                      (by simp [String.data_append]) (by decide) (by decide)
                      (fun hh => absurd hh (by decide)) ?_
                    rw [noNLL_append, noNLL_append, noNLL_append, noNLL_append,
                      noNLL_append,
                      noNL_of_lineSafe (hss a0 (by simp)),
                      noNL_of_lineSafe (hss a1 (by simp)),
                      noNL_of_lineSafe (hss a2 (by simp))]
                    decide
                  · rw [if_neg h7] at h
                    by_cases h8 : f = "Has"
                    · rw [if_pos h8] at h
                      rcases ss with _ | ⟨a0, _ | ⟨a1, restS⟩⟩ <;> simp at h
                      obtain ⟨hs, -⟩ := h
                      subst hs
                      refine lineSafe_parts ("(").data
                        (a1.data ++ (".get(").data ++ a0.data ++
                          (", None) != None)").data)
                        (by simp [String.data_append]) (by decide) (by decide)
                        (fun hh => absurd hh (by decide)) ?_
                      rw [noNLL_append, noNLL_append, noNLL_append,
                        noNL_of_lineSafe (hss a0 (by simp)),
                        noNL_of_lineSafe (hss a1 (by simp))]
                      decide
                    · rw [if_neg h8] at h
                      by_cases h9 : f = "Get"
                      · rw [if_pos h9] at h
                        rcases ss with _ | ⟨a0, _ | ⟨a1, restS⟩⟩ <;> simp at h
                        obtain ⟨hs, -⟩ := h
                        subst hs
                        refine lineSafe_parts ("(").data
                          (a1.data ++ (".get(").data ++ a0.data ++ ("))").data)
                          (by simp [String.data_append]) (by decide) (by decide)
                          (fun hh => absurd hh (by decide)) ?_
                        rw [noNLL_append, noNLL_append, noNLL_append,
                          noNL_of_lineSafe (hss a0 (by simp)),
                          noNL_of_lineSafe (hss a1 (by simp))]
                        decide
                      · rw [if_neg h9] at h
                        by_cases h10 : f = "Cond"
                        · rw [if_pos h10] at h
                          exact printCond_safe args fl1 s fl2 hca h
                        · rw [if_neg h10] at h
                          by_cases h11 : f = "Def"
                          · rw [if_pos h11] at h
                            exact printDef_safe args f ss fl1 s fl2 hcf hss hca h
                          · rw [if_neg h11] at h
                            by_cases h12 : f = "Inc"
                            · rw [if_pos h12] at h
                              simp at h
                              obtain ⟨hs, -⟩ := h
                              subst hs
                              exact lineSafe_inc ss hss
                            · rw [if_neg h12] at h
                              simp at h
                              obtain ⟨hs, -⟩ := h
                              subst hs
                              refine lineSafe_parts f.data
                                (("(").data ++
                                  (String.intercalate "," ss).data ++ (")").data)
                                (by simp [String.data_append])
                                (noNLL_of_cleanAtom hcf)
                                (startOKL_of_cleanAtom hcf)
                                (fun hh => absurd hh (data_ne_nil_of_cleanAtom hcf))
                                ?_
                              rw [noNLL_append, noNLL_append, hJ "," (by decide)]
                              decide

/-- Every member of a rendered clean expression list obeys the line
discipline. -/
theorem printExpressionList_safe (es : ExprList) (fl : PFlags) (ss : List String)
    (fl2 : PFlags) (hc : ExprList.cleanL es = true)
    (h : printExpressionList fl es = some (ss, fl2)) :
    ∀ x ∈ ss, lineSafe x = true := by
  match es with
  | .nil =>
    rw [show printExpressionList fl .nil = some ([], fl) from rfl] at h
    simp at h
    obtain ⟨h1, -⟩ := h
    subst h1
    simp
  | .cons e rest =>
    simp only [ExprList.cleanL, Bool.and_eq_true] at hc
    obtain ⟨hce, hcr⟩ := hc
    rw [show printExpressionList fl (.cons e rest) =
      (match printExpression fl e with
      | none => none
      | some (s, fl2) =>
        match printExpressionList fl2 rest with
        | none => none
        | some (ss, fl3) => some (s :: ss, fl3)) from rfl] at h
    match hx : printExpression fl e with
    | none => simp only [hx] at h; simp at h
    | some (s1, flA) =>
      simp only [hx] at h
      match hy : printExpressionList flA rest with
      | none => simp only [hy] at h; simp at h
      | some (ss1, flB) =>
        simp only [hy] at h
        simp at h
        obtain ⟨h1, -⟩ := h
        subst h1
        intro x hxm
        rcases List.mem_cons.mp hxm with rfl | hxm2
        · exact printExpression_safe e fl x flA hce hx
        · exact printExpressionList_safe rest flA ss1 flB hcr hy x hxm2

/-- The `Cond` rendering obeys the line discipline. -/
theorem printCond_safe (args : ExprList) (fl : PFlags) (s : String)
    (fl2 : PFlags) (hc : ExprList.cleanL args = true)
    (h : printCond fl args = some (s, fl2)) : lineSafe s = true := by
  match args with
  | .nil => rw [show printCond fl .nil = none from rfl] at h; simp at h
  | .cons a0 rest1 =>
    simp only [ExprList.cleanL, Bool.and_eq_true] at hc
    obtain ⟨hc0, hcr⟩ := hc
    rw [show printCond fl (.cons a0 rest1) =
      (match printCondSecond fl rest1 with
      | none => none
      | some (r1, fl2) =>
        match printExpression fl2 a0 with
        | none => none
        | some (r0, fl3) =>
          match printCondThird fl3 rest1 with
          | none => none
          | some (r2, fl4) =>
            some (r1 ++ " if " ++ r0 ++ " else " ++ r2, fl4)) from rfl] at h
    match hx : printCondSecond fl rest1 with
    | none => simp only [hx] at h; simp at h
    | some (r1, flA) =>
      simp only [hx] at h
      match hy : printExpression flA a0 with
      | none => simp only [hy] at h; simp at h
      | some (r0, flB) =>
        simp only [hy] at h
        match hz : printCondThird flB rest1 with
        | none => simp only [hz] at h; simp at h
        | some (r2, flC) =>
          simp only [hz] at h
          simp at h
          obtain ⟨hs, -⟩ := h
          subst hs
          have h1 := printCondSecond_safe rest1 fl r1 flA hcr hx
          have h0 := printExpression_safe a0 flA r0 flB hc0 hy
          have h2 := printCondThird_safe rest1 flB r2 flC hcr hz
          refine lineSafe_parts r1.data
            ((" if ").data ++ r0.data ++ (" else ").data ++ r2.data)
            (by simp [String.data_append]) (noNL_of_lineSafe h1)
            (startOK_of_lineSafe h1) (fun _ => ?_) ?_
          · rw [show (" if ").data = [' ', 'i', 'f', ' '] from rfl]
            rw [List.cons_append]
            simp [startOKL]
          · rw [noNLL_append, noNLL_append, noNLL_append,
              noNL_of_lineSafe h0, noNL_of_lineSafe h2]
            decide

/-- `Cond`'s second argument rendering obeys the line discipline. -/
theorem printCondSecond_safe (rest1 : ExprList) (fl : PFlags) (s : String)
    (fl2 : PFlags) (hc : ExprList.cleanL rest1 = true)
    (h : printCondSecond fl rest1 = some (s, fl2)) : lineSafe s = true := by
  match rest1 with
  | .nil => rw [show printCondSecond fl .nil = none from rfl] at h; simp at h
  | .cons a1 rest2 =>
    simp only [ExprList.cleanL, Bool.and_eq_true] at hc
    rw [show printCondSecond fl (.cons a1 rest2) =
      printExpression fl a1 from rfl] at h
    exact printExpression_safe a1 fl s fl2 hc.1 h

/-- `Cond`'s third argument rendering obeys the line discipline. -/
theorem printCondThird_safe (rest1 : ExprList) (fl : PFlags) (s : String)
    (fl2 : PFlags) (hc : ExprList.cleanL rest1 = true)
    (h : printCondThird fl rest1 = some (s, fl2)) : lineSafe s = true := by
  match rest1 with
  | .nil => rw [show printCondThird fl .nil = none from rfl] at h; simp at h
  | .cons a1 rest2 =>
    simp only [ExprList.cleanL, Bool.and_eq_true] at hc
    rw [show printCondThird fl (.cons a1 rest2) =
      printCondSecond fl rest2 from rfl] at h
    exact printCondSecond_safe rest2 fl s fl2 hc.2 h

/-- The `Def` rendering obeys the line discipline. -/
theorem printDef_safe (args : ExprList) (cn : String) (astrs : List String)
    (fl : PFlags) (s : String) (fl2 : PFlags)
    (hcn : cleanAtom cn = true) (hstrs : ∀ x ∈ astrs, lineSafe x = true)
    (hc : ExprList.cleanL args = true)
    (h : printDef cn astrs fl args = some (s, fl2)) : lineSafe s = true := by
  match args with
  | .nil => rw [show printDef cn astrs fl .nil = none from rfl] at h; simp at h
  | .cons first restArgs =>
    simp only [ExprList.cleanL, Bool.and_eq_true] at hc
    obtain ⟨hcf, hcr⟩ := hc
    match first with
    | .variableReference defname =>
      rw [show printDef cn astrs fl (.cons (.variableReference defname) restArgs) =
        printDefNamed cn astrs defname fl restArgs from rfl] at h
      exact printDefNamed_safe restArgs cn astrs defname fl s fl2 hcn hstrs
        (by simpa [Expression.cleanE] using hcf) hcr h
    | .assignment lhs rhs =>
      rw [show printDef cn astrs fl (.cons (.assignment lhs rhs) restArgs) =
        printDefAssign fl (.assignment lhs rhs) from rfl] at h
      exact printDefAssign_safe (.assignment lhs rhs) fl s fl2 hcf h
    | .literalNumber v =>
      rw [show printDef cn astrs fl (.cons (.literalNumber v) restArgs) =
        some (cn ++ "(" ++ String.intercalate "," astrs ++ ")", fl) from rfl] at h
      simp at h
      obtain ⟨hs, -⟩ := h
      subst hs
      refine lineSafe_parts cn.data
        (("(").data ++ (String.intercalate "," astrs).data ++ (")").data)
        (by simp [String.data_append]) (noNLL_of_cleanAtom hcn)
        (startOKL_of_cleanAtom hcn)
        (fun hh => absurd hh (data_ne_nil_of_cleanAtom hcn)) ?_
      rw [noNLL_append, noNLL_append,
        noNLL_intercalate "," (by decide) astrs
          (fun x hx => noNL_of_lineSafe (hstrs x hx))]
      decide
    | .call g gargs =>
      rw [show printDef cn astrs fl (.cons (.call g gargs) restArgs) =
        some (cn ++ "(" ++ String.intercalate "," astrs ++ ")", fl) from rfl] at h
      simp at h
      obtain ⟨hs, -⟩ := h
      subst hs
      refine lineSafe_parts cn.data
        (("(").data ++ (String.intercalate "," astrs).data ++ (")").data)
        (by simp [String.data_append]) (noNLL_of_cleanAtom hcn)
        (startOKL_of_cleanAtom hcn)
        (fun hh => absurd hh (data_ne_nil_of_cleanAtom hcn)) ?_
      rw [noNLL_append, noNLL_append,
        noNLL_intercalate "," (by decide) astrs
          (fun x hx => noNL_of_lineSafe (hstrs x hx))]
      decide

/-- The named-`Def` rendering obeys the line discipline. -/
theorem printDefNamed_safe (restArgs : ExprList) (cn : String)
    (astrs : List String) (dn : String) (fl : PFlags) (s : String) (fl2 : PFlags)
    (hcn : cleanAtom cn = true) (hstrs : ∀ x ∈ astrs, lineSafe x = true)
    (hdn : cleanAtom dn = true) (hc : ExprList.cleanL restArgs = true)
    (h : printDefNamed cn astrs dn fl restArgs = some (s, fl2)) :
    lineSafe s = true := by
  have hgen : ∀ fl3 : PFlags,
      some (cn ++ "(" ++ String.intercalate "," astrs ++ ")", fl3) =
        some (s, fl2) → lineSafe s = true := by
    intro fl3 hgeq
    simp at hgeq
    obtain ⟨hs, -⟩ := hgeq
    subst hs
    refine lineSafe_parts cn.data
      (("(").data ++ (String.intercalate "," astrs).data ++ (")").data)
      (by simp [String.data_append]) (noNLL_of_cleanAtom hcn)
      (startOKL_of_cleanAtom hcn)
      (fun hh => absurd hh (data_ne_nil_of_cleanAtom hcn)) ?_
    rw [noNLL_append, noNLL_append,
      noNLL_intercalate "," (by decide) astrs
        (fun x hx => noNL_of_lineSafe (hstrs x hx))]
    decide
  match restArgs with
  | .nil =>
    rw [show printDefNamed cn astrs dn fl .nil =
      some (cn ++ "(" ++ String.intercalate "," astrs ++ ")", fl) from rfl] at h
    exact hgen fl h
  | .cons a1 rest2 =>
    simp only [ExprList.cleanL, Bool.and_eq_true] at hc
    obtain ⟨hc1, hcr⟩ := hc
    match rest2 with
    | .nil =>
      rw [show printDefNamed cn astrs dn fl (.cons a1 .nil) =
        some (cn ++ "(" ++ String.intercalate "," astrs ++ ")", fl) from rfl] at h
      exact hgen fl h
    | .cons a2 rest3 =>
      rw [show printDefNamed cn astrs dn fl (.cons a1 (.cons a2 rest3)) =
        (match printDefArg fl a1 with
        | none => none
        | some (params, fl2) =>
          match printDefBody fl2 (.cons a2 rest3) with
          | none => none
          | some (body, fl3) =>
            some (dn ++ " = lambda " ++ String.intercalate ", " params
              ++ ": " ++ body, fl3)) from rfl] at h
      match hx : printDefArg fl a1 with
      | none => simp only [hx] at h; simp at h
      | some (params, flA) =>
        simp only [hx] at h
        match hy : printDefBody flA (.cons a2 rest3) with
        | none => simp only [hy] at h; simp at h
        | some (body, flB) =>
          simp only [hy] at h
          simp at h
          obtain ⟨hs, -⟩ := h
          subst hs
          have hps := printDefArg_safe a1 fl params flA hc1 hx
          have hbody := printDefBody_safe (.cons a2 rest3) flA body flB
            (by simpa [ExprList.cleanL, Bool.and_eq_true] using hcr) hy
          refine lineSafe_parts dn.data
            ((" = lambda ").data ++ (String.intercalate ", " params).data ++
              (": ").data ++ body.data)
            (by simp [String.data_append]) (noNLL_of_cleanAtom hdn)
            (startOKL_of_cleanAtom hdn)
            (fun hh => absurd hh (data_ne_nil_of_cleanAtom hdn)) ?_
          rw [noNLL_append, noNLL_append, noNLL_append,
            noNLL_intercalate ", " (by decide) params
              (fun x hx2 => noNL_of_lineSafe (hps x hx2)),
            noNL_of_lineSafe hbody]
          decide

/-- The `Def` parameter-source rendering obeys the line discipline. -/
theorem printDefArg_safe (a1 : Expression) (fl : PFlags) (ps : List String)
    (fl2 : PFlags) (hc : Expression.cleanE a1 = true)
    (h : printDefArg fl a1 = some (ps, fl2)) :
    ∀ x ∈ ps, lineSafe x = true := by
  match a1 with
  | .call g gargs =>
    simp only [Expression.cleanE, Bool.and_eq_true] at hc
    rw [show printDefArg fl (.call g gargs) =
      (if g = "Args" then printDefParams fl gargs else some ([], fl))
      from rfl] at h
    by_cases hg : g = "Args"
    · rw [if_pos hg] at h
      exact printDefParams_safe gargs fl ps fl2 hc.2 h
    · rw [if_neg hg] at h
      simp at h
      obtain ⟨h1, -⟩ := h
      subst h1
      simp
  | .variableReference v =>
    rw [show printDefArg fl (.variableReference v) = some ([], fl) from rfl] at h
    simp at h
    obtain ⟨h1, -⟩ := h
    subst h1
    simp
  | .literalNumber v =>
    rw [show printDefArg fl (.literalNumber v) = some ([], fl) from rfl] at h
    simp at h
    obtain ⟨h1, -⟩ := h
    subst h1
    simp
  | .assignment lhs rhs =>
    rw [show printDefArg fl (.assignment lhs rhs) = some ([], fl) from rfl] at h
    simp at h
    obtain ⟨h1, -⟩ := h
    subst h1
    simp

/-- The `Def` body rendering obeys the line discipline. -/
theorem printDefBody_safe (rest2 : ExprList) (fl : PFlags) (s : String)
    (fl2 : PFlags) (hc : ExprList.cleanL rest2 = true)
    (h : printDefBody fl rest2 = some (s, fl2)) : lineSafe s = true := by
  match rest2 with
  | .nil => rw [show printDefBody fl .nil = none from rfl] at h; simp at h
  | .cons a2 rest3 =>
    simp only [ExprList.cleanL, Bool.and_eq_true] at hc
    rw [show printDefBody fl (.cons a2 rest3) =
      printExpression fl a2 from rfl] at h
    exact printExpression_safe a2 fl s fl2 hc.1 h

/-- The assignment-`Def` rendering obeys the line discipline. -/
theorem printDefAssign_safe (first : Expression) (fl : PFlags) (s : String)
    (fl2 : PFlags) (hc : Expression.cleanE first = true)
    (h : printDefAssign fl first = some (s, fl2)) : lineSafe s = true := by
  match first with
  | .assignment lhs rhs =>
    simp only [Expression.cleanE, Bool.and_eq_true] at hc
    obtain ⟨hcl, hcr⟩ := hc
    match lhs with
    | .variableReference v =>
      rw [show printDefAssign fl (.assignment (.variableReference v) rhs) =
        (match printExpression fl rhs with
        | none => none
        | some (r, fl2) => some (v ++ " = " ++ r, fl2)) from rfl] at h
      match hx : printExpression fl rhs with
      | none => simp only [hx] at h; simp at h
      | some (r, flA) =>
        simp only [hx] at h
        simp at h
        obtain ⟨hs, -⟩ := h
        subst hs
        have hr := printExpression_safe rhs fl r flA hcr hx
        refine lineSafe_parts v.data ((" = ").data ++ r.data)
          (by simp [String.data_append])
          (noNLL_of_cleanAtom (by simpa [Expression.cleanE] using hcl))
          (startOKL_of_cleanAtom (by simpa [Expression.cleanE] using hcl))
          (fun hh => absurd hh (data_ne_nil_of_cleanAtom
            (by simpa [Expression.cleanE] using hcl))) ?_
        rw [noNLL_append, noNL_of_lineSafe hr]
        decide
    | .literalNumber v =>
      rw [show printDefAssign fl (.assignment (.literalNumber v) rhs) =
        none from rfl] at h
      simp at h
    | .call g gargs =>
      rw [show printDefAssign fl (.assignment (.call g gargs) rhs) =
        none from rfl] at h
      simp at h
    | .assignment l2 r2 =>
      rw [show printDefAssign fl (.assignment (.assignment l2 r2) rhs) =
        none from rfl] at h
      simp at h
  | .variableReference v =>
    rw [show printDefAssign fl (.variableReference v) = none from rfl] at h
    simp at h
  | .literalNumber v =>
    rw [show printDefAssign fl (.literalNumber v) = none from rfl] at h
    simp at h
  | .call g gargs =>
    rw [show printDefAssign fl (.call g gargs) = none from rfl] at h
    simp at h

/-- The `Let` loop's parameters and body obey the line discipline. -/
theorem printLetLoop_safe (es : ExprList) (fl : PFlags) (params : List String)
    (body : String) (fl2 : PFlags) (hc : ExprList.cleanL es = true)
    (h : printLetLoop fl es = some (params, body, fl2)) :
    (∀ x ∈ params, lineSafe x = true) ∧ lineSafe body = true := by
  match es with
  | .nil => rw [show printLetLoop fl .nil = none from rfl] at h; simp at h
  | .cons e rest =>
    simp only [ExprList.cleanL, Bool.and_eq_true] at hc
    obtain ⟨hce, hcr⟩ := hc
    match rest with
    | .nil =>
      rw [show printLetLoop fl (.cons e .nil) =
        (match printExpression fl e with
        | none => none
        | some (body, fl2) => some ([], body, fl2)) from rfl] at h
      match hx : printExpression fl e with
      | none => simp only [hx] at h; simp at h
      | some (b1, flA) =>
        simp only [hx] at h
        simp at h
        obtain ⟨h1, h2, -⟩ := h
        subst h1
        subst h2
        exact ⟨by simp, printExpression_safe e fl _ flA hce hx⟩
    | .cons e2 rest2 =>
      rw [show printLetLoop fl (.cons e (.cons e2 rest2)) =
        (match printLetBinding fl e with
        | none => none
        | some (piece, fl2) =>
          match printLetLoop fl2 (.cons e2 rest2) with
          | none => none
          | some (params, body, fl3) =>
            some (piece ++ params, body, fl3)) from rfl] at h
      match hx : printLetBinding fl e with
      | none => simp only [hx] at h; simp at h
      | some (piece, flA) =>
        simp only [hx] at h
        match hy : printLetLoop flA (.cons e2 rest2) with
        | none => simp only [hy] at h; simp at h
        | some (params1, body1, flB) =>
          simp only [hy] at h
          simp at h
          obtain ⟨h1, h2, -⟩ := h
          subst h1
          subst h2
          have hp := printLetBinding_safe e fl piece flA hce hx
          obtain ⟨hps, hbody⟩ := printLetLoop_safe (.cons e2 rest2) flA
            params1 body1 flB
            (by simpa [ExprList.cleanL, Bool.and_eq_true] using hcr) hy
          refine ⟨?_, hbody⟩
          intro x hxm
          rcases List.mem_append.mp hxm with hxm2 | hxm2
          · exact hp x hxm2
          · exact hps x hxm2

/-- A `Let` binding's parameter strings obey the line discipline. -/
theorem printLetBinding_safe (e : Expression) (fl : PFlags) (ps : List String)
    (fl2 : PFlags) (hc : Expression.cleanE e = true)
    (h : printLetBinding fl e = some (ps, fl2)) :
    ∀ x ∈ ps, lineSafe x = true := by
  match e with
  | .assignment lhs rhs =>
    simp only [Expression.cleanE, Bool.and_eq_true] at hc
    obtain ⟨hcl, hcr⟩ := hc
    match lhs with
    | .variableReference v =>
      rw [show printLetBinding fl (.assignment (.variableReference v) rhs) =
        (match printExpression fl rhs with
        | none => none
        | some (value, fl2) => some ([v ++ " = " ++ value], fl2)) from rfl] at h
      match hx : printExpression fl rhs with
      | none => simp only [hx] at h; simp at h
      | some (value, flA) =>
        simp only [hx] at h
        simp at h
        obtain ⟨h1, -⟩ := h
        subst h1
        intro x hxm
        simp at hxm
        subst hxm
        have hr := printExpression_safe rhs fl value flA hcr hx
        refine lineSafe_parts v.data ((" = ").data ++ value.data)
          (by simp [String.data_append])
          (noNLL_of_cleanAtom (by simpa [Expression.cleanE] using hcl))
          (startOKL_of_cleanAtom (by simpa [Expression.cleanE] using hcl))
          (fun hh => absurd hh (data_ne_nil_of_cleanAtom
            (by simpa [Expression.cleanE] using hcl))) ?_
        rw [noNLL_append, noNL_of_lineSafe hr]
        decide
    | .literalNumber v =>
      rw [show printLetBinding fl (.assignment (.literalNumber v) rhs) =
        none from rfl] at h
      simp at h
    | .call g gargs =>
      rw [show printLetBinding fl (.assignment (.call g gargs) rhs) =
        none from rfl] at h
      simp at h
    | .assignment l2 r2 =>
      rw [show printLetBinding fl (.assignment (.assignment l2 r2) rhs) =
        none from rfl] at h
      simp at h
  | .variableReference v =>
    rw [show printLetBinding fl (.variableReference v) =
      some ([v], fl) from rfl] at h
    simp at h
    obtain ⟨h1, -⟩ := h
    subst h1
    intro x hxm
    simp at hxm
    subst hxm
    exact lineSafe_of_cleanAtom (by simpa [Expression.cleanE] using hc)
  | .literalNumber v =>
    rw [show printLetBinding fl (.literalNumber v) = some ([], fl) from rfl] at h
    simp at h
    obtain ⟨h1, -⟩ := h
    subst h1
    simp
  | .call g gargs =>
    rw [show printLetBinding fl (.call g gargs) = some ([], fl) from rfl] at h
    simp at h
    obtain ⟨h1, -⟩ := h
    subst h1
    simp

/-- All `Def` parameters rendered from a clean list obey the line
discipline. -/
theorem printDefParams_safe (es : ExprList) (fl : PFlags) (ps : List String)
    (fl2 : PFlags) (hc : ExprList.cleanL es = true)
    (h : printDefParams fl es = some (ps, fl2)) :
    ∀ x ∈ ps, lineSafe x = true := by
  match es with
  | .nil =>
    rw [show printDefParams fl .nil = some ([], fl) from rfl] at h
    simp at h
    obtain ⟨h1, -⟩ := h
    subst h1
    simp
  | .cons arg rest =>
    simp only [ExprList.cleanL, Bool.and_eq_true] at hc
    obtain ⟨hca, hcr⟩ := hc
    rw [show printDefParams fl (.cons arg rest) =
      (match printDefParam fl arg with
      | none => none
      | some (piece, fl2) =>
        match printDefParams fl2 rest with
        | none => none
        | some (params, fl3) => some (piece ++ params, fl3)) from rfl] at h
    match hx : printDefParam fl arg with
    | none => simp only [hx] at h; simp at h
    | some (piece, flA) =>
      simp only [hx] at h
      match hy : printDefParams flA rest with
      | none => simp only [hy] at h; simp at h
      | some (params1, flB) =>
        simp only [hy] at h
        simp at h
        obtain ⟨h1, -⟩ := h
        subst h1
        have hp := printDefParam_safe arg fl piece flA hca hx
        have hps := printDefParams_safe rest flA params1 flB hcr hy
        intro x hxm
        rcases List.mem_append.mp hxm with hxm2 | hxm2
        · exact hp x hxm2
        · exact hps x hxm2

/-- One `Def` parameter entry obeys the line discipline. -/
theorem printDefParam_safe (arg : Expression) (fl : PFlags) (ps : List String)
    (fl2 : PFlags) (hc : Expression.cleanE arg = true)
    (h : printDefParam fl arg = some (ps, fl2)) :
    ∀ x ∈ ps, lineSafe x = true := by
  match arg with
  | .variableReference v =>
    rw [show printDefParam fl (.variableReference v) =
      some ([v], fl) from rfl] at h
    simp at h
    obtain ⟨h1, -⟩ := h
    subst h1
    intro x hxm
    simp at hxm
    subst hxm
    exact lineSafe_of_cleanAtom (by simpa [Expression.cleanE] using hc)
  | .literalNumber v =>
    rw [show printDefParam fl (.literalNumber v) = some ([], fl) from rfl] at h
    simp at h
    obtain ⟨h1, -⟩ := h
    subst h1
    simp
  | .call g gargs =>
    simp only [Expression.cleanE, Bool.and_eq_true] at hc
    obtain ⟨hcg, hcargs⟩ := hc
    rw [show printDefParam fl (.call g gargs) =
      (if g = "Args" then
        match printExpressionList fl gargs with
        | none => none
        | some (subparams, fl2) => some (subparams, fl2)
      else if g = "HashMap" then
        if gargs.length > 1 then none
        else
          match gargs with
          | .cons (.variableReference v) _ => some ([v ++ " = dict()"], fl)
          | _ => none
      else some ([], fl)) from rfl] at h
    by_cases hg : g = "Args"
    · rw [if_pos hg] at h
      match hx : printExpressionList fl gargs with
      | none => simp only [hx] at h; simp at h
      | some (subparams, flA) =>
        simp only [hx] at h
        simp at h
        obtain ⟨h1, -⟩ := h
        subst h1
        exact printExpressionList_safe gargs fl subparams flA hcargs hx
    · rw [if_neg hg] at h
      by_cases hh : g = "HashMap"
      · rw [if_pos hh] at h
        by_cases hl : gargs.length > 1
        · rw [if_pos hl] at h
          simp at h
        · rw [if_neg hl] at h
          match gargs with
          | .nil => simp at h
          | .cons (.variableReference v) grest =>
            simp at h
            obtain ⟨h1, -⟩ := h
            subst h1
            intro x hxm
            simp at hxm
            subst hxm
            have hcv : cleanAtom v = true := by
              simp only [ExprList.cleanL, Expression.cleanE,
                Bool.and_eq_true] at hcargs
              exact hcargs.1
            refine lineSafe_parts v.data ((" = dict()").data)
              (by simp [String.data_append])
              (noNLL_of_cleanAtom hcv) (startOKL_of_cleanAtom hcv)
              (fun hh2 => absurd hh2 (data_ne_nil_of_cleanAtom hcv))
              (by decide)
          | .cons (.literalNumber v) grest => simp at h
          | .cons (.call g2 gargs2) grest => simp at h
          | .cons (.assignment l2 r2) grest => simp at h
      · rw [if_neg hh] at h
        simp at h
        obtain ⟨h1, -⟩ := h
        subst h1
        simp
  | .assignment lhs rhs =>
    simp only [Expression.cleanE, Bool.and_eq_true] at hc
    obtain ⟨hcl, hcr⟩ := hc
    match lhs with
    | .variableReference v =>
      rw [show printDefParam fl (.assignment (.variableReference v) rhs) =
        (match printExpression fl rhs with
        | none => none
        | some (r, fl2) => some ([v ++ " = " ++ r], fl2)) from rfl] at h
      match hx : printExpression fl rhs with
      | none => simp only [hx] at h; simp at h
      | some (r, flA) =>
        simp only [hx] at h
        simp at h
        obtain ⟨h1, -⟩ := h
        subst h1
        intro x hxm
        simp at hxm
        subst hxm
        have hr := printExpression_safe rhs fl r flA hcr hx
        refine lineSafe_parts v.data ((" = ").data ++ r.data)
          (by simp [String.data_append])
          (noNLL_of_cleanAtom (by simpa [Expression.cleanE] using hcl))
          (startOKL_of_cleanAtom (by simpa [Expression.cleanE] using hcl))
          (fun hh => absurd hh (data_ne_nil_of_cleanAtom
            (by simpa [Expression.cleanE] using hcl))) ?_
        rw [noNLL_append, noNL_of_lineSafe hr]
        decide
    | .literalNumber v =>
      rw [show printDefParam fl (.assignment (.literalNumber v) rhs) =
        none from rfl] at h
      simp at h
    | .call g2 gargs2 =>
      rw [show printDefParam fl (.assignment (.call g2 gargs2) rhs) =
        none from rfl] at h
      simp at h
    | .assignment l2 r2 =>
      rw [show printDefParam fl (.assignment (.assignment l2 r2) rhs) =
        none from rfl] at h
      simp at h

end

/-! ## The whole pipeline (`cmd/exig/main.go`) -/

/-- A fresh Go `Lexer` over a source text (`lexer.New`). -/
def initLexer (source : String) : GoLexer :=
  { st := { row := 0, col := 0 }, tokenQueue := [], src := source.data }

/-- Outcome of the `tokenize → parse → render` pipeline: the rendered
python text, or one of the two kinds of process abort. -/
inductive CompileOutcome where
  | ok (output : String)
  | parseAborted (e : GoError)
  | printerAborted
deriving DecidableEq, Repr

/-- The compiler pipeline of `cmd/exig/main.go`:
`parser.New(lexer.New(src)).Parse()` then `printer.PrintPython()`. -/
def compile (source : String) : CompileOutcome :=
  match Parse (initLexer source) with
  | .fatal e => .parseAborted e
  | .ok b =>
    match printerString b with
    | none => .printerAborted
    | some out => .ok out

/-! ## The claims -/

/-- C2 (code bug in the lexer): the claim — and §4.1/§7 of the spec —
says that an unrecognized character yields a fatal lexical error
*distinct from* the end-of-stream signal.  The code does not: the
fall-through for an unrecognized rune (here `'#'`) returns the exact
pair `(UnknownToken, io.EOF)` that genuine end of input returns, as the
code's own comments concede ("I think, here we should throw an error …",
"… or it is probably a bug").  At every state the two outcomes are the
same value of `NextOut`, so no caller can distinguish them; in
particular, everything after an unrecognized character is silently
dropped as if the file had ended. -/
theorem c2_unrecognized_rune_equals_eof :
    (∀ st : LexState, lexnext st ['#'] = .eofSignal st [] ∧
      lexnext st [] = .eofSignal st []) ∧
    lexnext { row := 0, col := 0 } ['#'] = lexnext { row := 0, col := 0 } [] := by
  refine ⟨fun st => ⟨rfl, rfl⟩, rfl⟩

/-- C7 (counterexample): the claim says a `'/'` not followed by another
`'/'` raises a lexical error at that character.  It does not: scanning
`"/1 "` produces the ordinary `Number` token `1`, with no error of any
kind, exactly as if the slash were absent from the source. -/
theorem c7_counterexample_lone_slash_not_an_error :
    lexnext { row := 0, col := 0 } ('/' :: '1' :: ' ' :: []) =
      lexnext { row := 0, col := 0 } ('1' :: ' ' :: []) ∧
    lexnext { row := 0, col := 0 } ('/' :: '1' :: ' ' :: []) =
      .tok { typ := .number, value := "1",
             location := { col := 0, row := 0, file := "" } }
        { row := 0, col := 1 } [' '] := by
  exact ⟨rfl, rfl⟩

/-- While a name is being accumulated, the pending-comment flag is never
consulted: the scan either continues on letters/digits or hands the rune
back and emits the token. -/
theorem nextLoop_searchName_mc {src : List Char} :
    ∀ {st na nu snum mc1 mc2},
      nextLoop st na nu true snum mc1 false src =
        nextLoop st na nu true snum mc2 false src := by
  induction src with
  | nil => intro st na nu snum mc1 mc2; rfl
  | cons r rs ih =>
    intro st na nu snum mc1 mc2
    rw [nextLoop.eq_def]
    conv_rhs => rw [nextLoop.eq_def]
    simp only
    rcases h : classifyRune r <;> simp [h] <;> exact ih

/-- Same for a number. -/
theorem nextLoop_searchNumber_mc {src : List Char} :
    ∀ {st na nu mc1 mc2},
      nextLoop st na nu false true mc1 false src =
        nextLoop st na nu false true mc2 false src := by
  induction src with
  | nil => intro st na nu mc1 mc2; rfl
  | cons r rs ih =>
    intro st na nu mc1 mc2
    rw [nextLoop.eq_def]
    conv_rhs => rw [nextLoop.eq_def]
    simp only
    rcases h : classifyRune r <;> simp [h] <;> exact ih

/-- No `'/'` occurs among the runes the scan reads before the next
token (or the end of the scan): the leading layout and line-break runes
are crossed, and the first rune of any other class stops the search —
only a `'/'` there returns `false`.  This is exactly the region of one
`next` call in which the `maybeComment` flag is still live. -/
def noSlashBeforeTokenStart : List Char → Bool
  | [] => true
  | c :: cs =>
    match classifyRune c with
    | .layout => noSlashBeforeTokenStart cs
    | .newline => noSlashBeforeTokenStart cs
    | .slash => false
    | _ => true

/-- Scanning with the `maybeComment` flag armed equals scanning with it
clear as long as no `'/'` arrives before the next token starts: the
flag survives layout and line breaks but is only ever consulted at a
`'/'`, and a name, number, bracket, comma, equals sign, unrecognized
rune or the end of input retires it unread. -/
theorem nextLoop_mc_of_noSlash {src : List Char} :
    ∀ {st : LexState}, noSlashBeforeTokenStart src = true →
      nextLoop st [] [] false false true false src =
        nextLoop st [] [] false false false false src := by
  induction src with
  | nil => intro st h; rfl
  | cons r rs ih =>
    intro st h
    rw [noSlashBeforeTokenStart.eq_def] at h
    rw [nextLoop.eq_def]
    conv_rhs => rw [nextLoop.eq_def]
    simp only
    rcases hc : classifyRune r
    · simp only [hc]
      exact nextLoop_searchName_mc
    · simp only [hc]
      exact nextLoop_searchNumber_mc
    · simp [hc]
    · simp only [hc] at h ⊢
      exact ih h
    · simp only [hc] at h ⊢
      exact ih h
    · simp only [hc] at h
      exact Bool.noConfusion h
    · simp [hc]
    · simp [hc]
    · simp [hc]
    · simp [hc]

/-- C7 (as amended): a lone `'/'` — one that no later `'/'` of the same
scan pairs with before a token starts — is silently skipped: no error
is raised at it and scanning proceeds exactly as if the slash were
absent from the source, for any follower (letter, digit, bracket,
comma, equals sign, unrecognized rune or end of input, with any amount
of layout and line breaks in between).  The slash only arms the scan's
`maybeComment` flag; the flag survives layout, so a later `'/'` in the
same scan begins a comment instead: scanning `"/ /x\ny "` yields the
token `y` (the pair of slashes acted as a comment) where `" /x\ny "`
yields `x`. -/
theorem c7_amended_lone_slash_skipped :
    (∀ (st : LexState) (src : List Char), noSlashBeforeTokenStart src = true →
      lexnext st ('/' :: src) = lexnext st src) ∧
    lexnext { row := 0, col := 0 }
        ('/' :: ' ' :: '/' :: 'x' :: '\x0a' :: 'y' :: ' ' :: []) =
      .tok { typ := .name, value := "y",
             location := { col := 1, row := 0, file := "" } }
        { row := 0, col := 2 } [' '] ∧
    lexnext { row := 0, col := 0 } (' ' :: '/' :: 'x' :: '\x0a' :: 'y' :: ' ' :: []) =
      .tok { typ := .name, value := "x",
             location := { col := 1, row := 0, file := "" } }
        { row := 0, col := 2 } ['\x0a', 'y', ' '] := by
  refine ⟨fun st src h => ?_, rfl, rfl⟩
  show nextLoop st [] [] false false true false src =
    nextLoop st [] [] false false false false src
  exact nextLoop_mc_of_noSlash h

/-- Witness for the amended C7 with layout between the slash and the
letter — `"/ y "` scans exactly like `" y "`. -/
theorem c7_amended_witness :
    noSlashBeforeTokenStart (' ' :: 'y' :: ' ' :: []) = true ∧
    lexnext { row := 0, col := 0 } ('/' :: ' ' :: 'y' :: ' ' :: []) =
      lexnext { row := 0, col := 0 } (' ' :: 'y' :: ' ' :: []) :=
  ⟨by decide, c7_amended_lone_slash_skipped.1 { row := 0, col := 0 }
    (' ' :: 'y' :: ' ' :: []) (by decide)⟩

/-- C9: rendering `Def[MyPrint, Args[x], Print[x]]` as a statement
produces exactly `MyPrint = lambda x: builtin__print(x)` (and records
that the print helper is required). -/
theorem c9_def_named_function_render :
    printStatement { usingAssocBuiltin := false, usingPrintBuiltin := false }
      { expressions := .cons
          (.call "Def" (.cons (.variableReference "MyPrint")
            (.cons (.call "Args" (.cons (.variableReference "x") .nil))
              (.cons (.call "Print" (.cons (.variableReference "x") .nil)) .nil)))) .nil } =
      some ("MyPrint = lambda x: builtin__print(x)",
        { usingAssocBuiltin := false, usingPrintBuiltin := true }) := rfl

/-- C10: an `AssignmentExpression` rendered as an ordinary expression —
any position other than the destructured Let-binding / Def-parameter /
Def-first-argument forms, which never call `printExpression` on the
assignment node itself — falls through the printer's type switch and
emits the literal text `<unknown>`, with the injection flags untouched;
in particular the generic call `F[x = 1]` renders to `F(<unknown>)`. -/
theorem c10_assignment_renders_unknown :
    (∀ (lhs rhs : Expression) (fl : PFlags),
      printExpression fl (.assignment lhs rhs) = some ("<unknown>", fl)) ∧
    printStatement { usingAssocBuiltin := false, usingPrintBuiltin := false }
      { expressions := .cons
          (.call "F" (.cons (.assignment (.variableReference "x") (.literalNumber "1")) .nil))
          .nil } =
      some ("F(<unknown>)",
        { usingAssocBuiltin := false, usingPrintBuiltin := false }) :=
  ⟨fun _ _ _ => rfl, rfl⟩

/-- A successful `parseCall` advances the `Parse` loop one step. -/
theorem parseLoop_ok {acc : ExprList} {l l1 : GoLexer} {e : Expression}
    (h : parseCall l = .ok e l1) :
    parseLoop acc l = parseLoop (acc.snoc e) l1 := by
  rw [parseLoop.eq_def, h]

/-- An `io.EOF` error from `parseCall` ends the `Parse` loop gracefully. -/
theorem parseLoop_eof {acc : ExprList} {l l1 : GoLexer}
    (h : parseCall l = .err .eof l1) :
    parseLoop acc l = .ok { expressions := acc } := by
  rw [parseLoop.eq_def, h]

/-- C5: `parseCall` does not require the brackets around an argument
list to be present or to match.  For any input whose queued tokens are a
name, then *any* non-`[` token where the `[` is expected, then a number
argument, then *any* token that is neither `]` nor `,` where the `]` is
expected, `parseCall` consumes both mismatched tokens (their
`expectToken` errors are discarded by `_, _ =`), raises no error, and
still returns the `Call` node. -/
theorem c5_brackets_not_required (st : LexState) (fname numv : String)
    (loc1 loc2 : Location) (t1 t2 : Token)
    (h1 : t1.typ ≠ .squareBracketOpen)
    (h2 : t2.typ ≠ .squareBracketClose)
    (h3 : t2.typ ≠ .comma) :
    parseCall
      { st := st,
        tokenQueue := [some ⟨.name, fname, loc1⟩, some t1,
          some ⟨.number, numv, loc2⟩, some t2],
        src := [] } =
      .ok (.call fname (.cons (.literalNumber numv) .nil))
        { st := st, tokenQueue := [], src := [] } := by
  have e1 : expectToken .name
      (⟨st, [some ⟨.name, fname, loc1⟩, some t1,
        some ⟨.number, numv, loc2⟩, some t2], []⟩ : GoLexer) =
      ((.ok ⟨.name, fname, loc1⟩ : Except GoError Token),
        (⟨st, [some t1, some ⟨.number, numv, loc2⟩, some t2], []⟩ : GoLexer)) := rfl
  have e2 : (expectToken .squareBracketOpen
      (⟨st, [some t1, some ⟨.number, numv, loc2⟩, some t2], []⟩ : GoLexer)).2 =
      (⟨st, [some ⟨.number, numv, loc2⟩, some t2], []⟩ : GoLexer) := by
    rw [expectToken_snd]
    rfl
  have e4 : Peek (⟨st, [some ⟨.number, numv, loc2⟩, some t2], []⟩ : GoLexer) 1 =
      ((some ⟨.number, numv, loc2⟩ : TokenResult),
        (⟨st, [some ⟨.number, numv, loc2⟩, some t2], []⟩ : GoLexer)) := rfl
  have e5 : Consume (⟨st, [some ⟨.number, numv, loc2⟩, some t2], []⟩ : GoLexer) =
      some (⟨st, [some t2], []⟩ : GoLexer) := rfl
  have e6 : parseExpression
      (⟨st, [some ⟨.number, numv, loc2⟩, some t2], []⟩ : GoLexer) =
      .ok (.literalNumber numv) (⟨st, [some t2], []⟩ : GoLexer) :=
    parseExpression_number e4 rfl e5
  have e7 : Peek (⟨st, [some t2], []⟩ : GoLexer) 1 =
      ((some t2 : TokenResult), (⟨st, [some t2], []⟩ : GoLexer)) := rfl
  have e8 : parseArgsLoop (.cons (.literalNumber numv) .nil)
      (⟨st, [some t2], []⟩ : GoLexer) =
      .ok (.cons (.literalNumber numv) .nil) (⟨st, [some t2], []⟩ : GoLexer) :=
    parseArgsLoop_done e7 h3
  have e3 : MustPeek (⟨st, [some ⟨.number, numv, loc2⟩, some t2], []⟩ : GoLexer) 1 =
      some (⟨.number, numv, loc2⟩,
        (⟨st, [some ⟨.number, numv, loc2⟩, some t2], []⟩ : GoLexer)) := rfl
  have e9 : parseArgs (⟨st, [some ⟨.number, numv, loc2⟩, some t2], []⟩ : GoLexer) =
      .ok (.cons (.literalNumber numv) .nil) (⟨st, [some t2], []⟩ : GoLexer) := by
    rw [parseArgs_first e3 (by simp) e6]
    exact e8
  have e10 := parseCall_name_ok e1 (by rw [e2]; exact e9)
  rw [e10, expectToken_snd]
  rfl

/-- Witness for C5 with a comma where `[` belongs and an equals sign
where `]` belongs: the token sequence `F , 7 =` still parses as the call
`F[7]`. -/
theorem c5_brackets_not_required_witness :
    (⟨.comma, ",", ⟨0, 0, ""⟩⟩ : Token).typ ≠ TokenType.squareBracketOpen ∧
    (⟨.equals, "=", ⟨0, 0, ""⟩⟩ : Token).typ ≠ TokenType.squareBracketClose ∧
    (⟨.equals, "=", ⟨0, 0, ""⟩⟩ : Token).typ ≠ TokenType.comma ∧
    parseCall
      { st := { row := 0, col := 0 },
        tokenQueue := [some ⟨.name, "F", ⟨0, 0, ""⟩⟩, some ⟨.comma, ",", ⟨0, 0, ""⟩⟩,
          some ⟨.number, "7", ⟨0, 0, ""⟩⟩, some ⟨.equals, "=", ⟨0, 0, ""⟩⟩],
        src := [] } =
      .ok (.call "F" (.cons (.literalNumber "7") .nil))
        { st := { row := 0, col := 0 }, tokenQueue := [], src := [] } :=
  ⟨by decide, by decide, by decide,
    c5_brackets_not_required { row := 0, col := 0 } "F" "7" ⟨0, 0, ""⟩ ⟨0, 0, ""⟩
      ⟨.comma, ",", ⟨0, 0, ""⟩⟩ ⟨.equals, "=", ⟨0, 0, ""⟩⟩
      (by decide) (by decide) (by decide)⟩

/-- C8: wherever an `Expression` is parsed, if the next two tokens are a
`Name` followed by `=`, `parseExpression` routes to `parseAssignment`:
the result is the assignment whose left-hand side is a
`VariableReference` to that name (when the right-hand side parses), and
it is never a bare `VariableReference`. -/
theorem c8_name_equals_parses_assignment {l l1 l2 : GoLexer} {t1 t2 : Token}
    (hp1 : Peek l 1 = (some t1, l1)) (ht1 : t1.typ = .name)
    (hp2 : Peek l1 2 = (some t2, l2)) (ht2 : t2.typ = .equals) :
    (parseExpression l =
      match parseExpression (expectToken .equals (expectToken .name l2).2).2 with
      | .fatal e => .fatal e
      | .err e l3 => .err e l3
      | .ok rhs l3 => .ok (.assignment (.variableReference t1.value) rhs) l3) ∧
    ∀ (v : String) (l4 : GoLexer),
      parseExpression l ≠ .ok (.variableReference v) l4 := by
  have hpi : Peek l2 2 = (some t2, l2) := Peek_idem hp2
  have hr2 : resultTypIs (some t2) .squareBracketOpen = false := by
    simp [resultTypIs, ht2]
  have hr3 : resultTypIs (some t2) .equals = true := by
    simp [resultTypIs, ht2]
  have hA : parseExpression l = parseAssignment l2 :=
    parseExpression_name_equals hp1 ht1 hp2 hr2 hpi hr3
  obtain ⟨q1, hq1⟩ := Peek_one_some hp1
  obtain ⟨ext, hqe⟩ := Peek_pair_queue hp2
  have hq2 : l2.tokenQueue = some t1 :: (q1 ++ ext) := by
    rw [hqe, hq1]
    rfl
  have he0 := expectToken_head hq2 ht1
  have he : expectToken .name l2 = (.ok t1, (expectToken .name l2).2) := by
    rw [he0]
  have hB := parseAssignment_name_ok he
  refine ⟨hA.trans hB, ?_⟩
  intro v l4 hcontra
  rw [hA, hB] at hcontra
  rcases hX : parseExpression (expectToken .equals (expectToken .name l2).2).2 with
    ⟨rhs, l3⟩ | ⟨e, l3⟩ | e <;> rw [hX] at hcontra <;> simp at hcontra

/-- Witness for C8: the queued tokens `x`, `=`, `1` parse from the
expression position as the assignment description, never as a bare
variable reference. -/
theorem c8_name_equals_parses_assignment_witness :
    (parseExpression
        (⟨⟨0, 0⟩, [some ⟨.name, "x", ⟨0, 0, ""⟩⟩, some ⟨.equals, "=", ⟨0, 0, ""⟩⟩,
          some ⟨.number, "1", ⟨0, 0, ""⟩⟩], []⟩ : GoLexer) =
      match parseExpression (expectToken .equals (expectToken .name
          (⟨⟨0, 0⟩, [some ⟨.name, "x", ⟨0, 0, ""⟩⟩, some ⟨.equals, "=", ⟨0, 0, ""⟩⟩,
            some ⟨.number, "1", ⟨0, 0, ""⟩⟩], []⟩ : GoLexer)).2).2 with
      | .fatal e => .fatal e
      | .err e l3 => .err e l3
      | .ok rhs l3 => .ok (.assignment (.variableReference "x") rhs) l3) ∧
    ∀ (v : String) (l4 : GoLexer),
      parseExpression
        (⟨⟨0, 0⟩, [some ⟨.name, "x", ⟨0, 0, ""⟩⟩, some ⟨.equals, "=", ⟨0, 0, ""⟩⟩,
          some ⟨.number, "1", ⟨0, 0, ""⟩⟩], []⟩ : GoLexer) ≠
        .ok (.variableReference v) l4 :=
  @c8_name_equals_parses_assignment
    (⟨⟨0, 0⟩, [some ⟨.name, "x", ⟨0, 0, ""⟩⟩, some ⟨.equals, "=", ⟨0, 0, ""⟩⟩,
      some ⟨.number, "1", ⟨0, 0, ""⟩⟩], []⟩ : GoLexer)
    (⟨⟨0, 0⟩, [some ⟨.name, "x", ⟨0, 0, ""⟩⟩, some ⟨.equals, "=", ⟨0, 0, ""⟩⟩,
      some ⟨.number, "1", ⟨0, 0, ""⟩⟩], []⟩ : GoLexer)
    (⟨⟨0, 0⟩, [some ⟨.name, "x", ⟨0, 0, ""⟩⟩, some ⟨.equals, "=", ⟨0, 0, ""⟩⟩,
      some ⟨.number, "1", ⟨0, 0, ""⟩⟩], []⟩ : GoLexer)
    ⟨.name, "x", ⟨0, 0, ""⟩⟩ ⟨.equals, "=", ⟨0, 0, ""⟩⟩ rfl rfl rfl rfl

/-- C1: in an AST whose every call name avoids the twelve special
forms, a call renders as a direct transliteration: the call name, an
open parenthesis, the comma-joined recursively rendered arguments, and
a close parenthesis — whatever shapes the arguments have — and the
injection flags are untouched. -/
theorem c1_generic_call_renders_transliteration (f : String) (args : ExprList)
    (fl : PFlags) (h : Expression.noSpecial (.call f args) = true) :
    ∃ ss, printExpressionList fl args = some (ss, fl) ∧
      printExpression fl (.call f args) =
        some (f ++ "(" ++ String.intercalate "," ss ++ ")", fl) := by
  have h2 := h
  simp only [Expression.noSpecial, Bool.and_eq_true, Bool.not_eq_true'] at h2
  obtain ⟨hf, hargs⟩ := h2
  obtain ⟨ss, hss⟩ := printExpressionList_noSpecial args fl hargs
  simp only [specialName, Bool.or_eq_false_iff, decide_eq_false_iff_not] at hf
  obtain ⟨⟨⟨⟨⟨⟨⟨⟨⟨⟨⟨h1, h2⟩, h3⟩, h4⟩, h5⟩, h6⟩, h7⟩, h8⟩, h9⟩, h10⟩, h11⟩, h12⟩ := hf
  refine ⟨ss, hss, ?_⟩
  rw [printExpression_call_eq]
  simp only [hss]
  simp only [if_neg h1, if_neg h2, if_neg h3, if_neg h4, if_neg h5, if_neg h6,
    if_neg h7, if_neg h8, if_neg h9, if_neg h10, if_neg h11, if_neg h12]

/-- Witness for C1 at the call `F[G[2], 7, y, x = 1]`, exercising all
four argument shapes (nested call, number literal, bare name,
assignment). -/
theorem c1_generic_call_renders_transliteration_witness :
    Expression.noSpecial
      (.call "F" (.cons (.call "G" (.cons (.literalNumber "2") .nil))
        (.cons (.literalNumber "7") (.cons (.variableReference "y")
          (.cons (.assignment (.variableReference "x") (.literalNumber "1"))
            .nil))))) = true ∧
    ∃ ss, printExpressionList ⟨false, false⟩
        (.cons (.call "G" (.cons (.literalNumber "2") .nil))
          (.cons (.literalNumber "7") (.cons (.variableReference "y")
            (.cons (.assignment (.variableReference "x") (.literalNumber "1"))
              .nil)))) = some (ss, ⟨false, false⟩) ∧
      printExpression ⟨false, false⟩
        (.call "F" (.cons (.call "G" (.cons (.literalNumber "2") .nil))
          (.cons (.literalNumber "7") (.cons (.variableReference "y")
            (.cons (.assignment (.variableReference "x") (.literalNumber "1"))
              .nil))))) =
        some ("F" ++ "(" ++ String.intercalate "," ss ++ ")", ⟨false, false⟩) :=
  ⟨by decide,
    c1_generic_call_renders_transliteration "F"
      (.cons (.call "G" (.cons (.literalNumber "2") .nil))
        (.cons (.literalNumber "7") (.cons (.variableReference "y")
          (.cons (.assignment (.variableReference "x") (.literalNumber "1"))
            .nil))))
      ⟨false, false⟩ (by decide)⟩

/-- C3: however many `Assoc`, `Has` and `Get` forms the rendering of a
clean block uses, the output is the rendered block with the assoc
helper prepended exactly when the flag was raised — in front of the
main block, after the print helper — and the helper's indented
assignment line occurs exactly once in the output when any of those
forms was rendered, never otherwise. -/
theorem c3_assoc_helper_once (b : BlockStatement) (st : String) (fl : PFlags)
    (hclean : b.cleanB = true)
    (hst : printStatement ⟨false, false⟩ b = some (st, fl)) :
    printerString b =
      some ((if fl.usingPrintBuiltin then printPrintBuiltin ++ "\x0a" else "") ++
        (if fl.usingAssocBuiltin then printAssocBuiltin ++ "\x0a" else "") ++ st) ∧
    (splitNL ((if fl.usingPrintBuiltin then printPrintBuiltin ++ "\x0a" else "") ++
        (if fl.usingAssocBuiltin then printAssocBuiltin ++ "\x0a" else "") ++
        st).data).count assocMarker =
      (if fl.usingAssocBuiltin then 1 else 0) := by
  have hst2 := hst
  rw [show printStatement (⟨false, false⟩ : PFlags) b =
    (match printExpressionList ⟨false, false⟩ b.expressions with
    | none => none
    | some (strs, fl2) =>
      some (String.intercalate "\x0a" strs, fl2)) from rfl] at hst2
  match hx : printExpressionList ⟨false, false⟩ b.expressions with
  | none => simp only [hx] at hst2; simp at hst2
  | some (strs, flX) =>
    simp only [hx] at hst2
    simp at hst2
    obtain ⟨hstv, hflv⟩ := hst2
    subst hflv
    have hstrs := printExpressionList_safe b.expressions ⟨false, false⟩ strs flX
      hclean hx
    have hcount0 : (splitNL st.data).count assocMarker = 0 := by
      rw [← hstv]
      exact count_marker_lines strs hstrs
    constructor
    · simp only [printerString]
      rw [hst]
      rcases flX with ⟨ab, pb⟩
      rcases ab <;> rcases pb <;> rfl
    · rcases flX with ⟨ab, pb⟩
      rcases ab <;> rcases pb
      · simpa using hcount0
      · rw [show ((if (true : Bool) then printPrintBuiltin ++ "\x0a" else "") ++
            (if (false : Bool) then printAssocBuiltin ++ "\x0a" else "") ++
            st).data = printPrintBuiltin.data ++ '\x0a' :: st.data from rfl]
        rw [splitNL_append, List.count_append, hcount0]
        decide
      · rw [show ((if (false : Bool) then printPrintBuiltin ++ "\x0a" else "") ++
            (if (true : Bool) then printAssocBuiltin ++ "\x0a" else "") ++
            st).data = printAssocBuiltin.data ++ '\x0a' :: st.data from rfl]
        rw [splitNL_append, List.count_append, hcount0]
        decide
      · rw [show ((if (true : Bool) then printPrintBuiltin ++ "\x0a" else "") ++
            (if (true : Bool) then printAssocBuiltin ++ "\x0a" else "") ++
            st).data = printPrintBuiltin.data ++ '\x0a' ::
              (printAssocBuiltin.data ++ '\x0a' :: st.data) from rfl]
        rw [splitNL_append, splitNL_append, List.count_append, List.count_append,
          hcount0]
        decide

/-- Witness for C3: the single-statement block `Assoc[k, v, HashMap[]]`
renders with the assoc flag raised; the output carries the helper once,
in front of the statement. -/
theorem c3_assoc_helper_once_witness :
    printerString
      (⟨.cons (.call "Assoc" (.cons (.variableReference "k")
        (.cons (.variableReference "v") (.cons (.call "HashMap" .nil) .nil))))
        .nil⟩ : BlockStatement) =
      some ((if (false : Bool) then printPrintBuiltin ++ "\x0a" else "") ++
        (if (true : Bool) then printAssocBuiltin ++ "\x0a" else "") ++
        "builtin__assoc(k, v, dict())") ∧
    (splitNL ((if (false : Bool) then printPrintBuiltin ++ "\x0a" else "") ++
        (if (true : Bool) then printAssocBuiltin ++ "\x0a" else "") ++
        ("builtin__assoc(k, v, dict())" : String)).data).count assocMarker =
      (if (true : Bool) then 1 else 0) :=
  c3_assoc_helper_once
    (⟨.cons (.call "Assoc" (.cons (.variableReference "k")
      (.cons (.variableReference "v") (.cons (.call "HashMap" .nil) .nil))))
      .nil⟩ : BlockStatement)
    "builtin__assoc(k, v, dict())" ⟨true, false⟩ (by decide) (by decide)

/-- C6: compiling the malformed input `Foo[` (name, open bracket, end of
input) aborts: `parseArgs` calls `MustPeek(1)`, which meets the queued
`io.EOF` result and `log.Fatal`s it — the unexpected-end-of-input
failure.  No block and no rendered output is produced. -/
theorem c6_unterminated_call_fails :
    Parse (initLexer "Foo[") = .fatal .eof ∧
    compile "Foo[" = .parseAborted .eof := by
  have h : parseCall (initLexer "Foo[") = .fatal .eof := by
    simp [parseCall, parseCallB, parseArgsB, parseExpressionB, parseAssignmentB,
      parseArgsLoopB, expectToken, Next, lognext, lexnext, nextLoop, MustPeek, Peek,
      fill, fillN, Consume, classifyRune, isLetterRune, isDigitRune, isNewlineRune,
      isSkipRune, resultTypIs, initLexer]
  have h2 : Parse (initLexer "Foo[") = .fatal .eof := by
    unfold Parse
    rw [parseLoop.eq_def, h]
  exact ⟨h2, by simp [compile, h2]⟩

/-- C4: the program `Let[x, Print[x]]` renders to the statement
`lambda x: builtin__print(x)`, and the whole-program output is exactly
that statement preceded by the print-helper definition (joined by the
`"%s\n%s"` of `Printer.String`). -/
theorem c4_let_print_pipeline :
    printExpression { usingAssocBuiltin := false, usingPrintBuiltin := false }
      (.call "Let" (.cons (.variableReference "x")
        (.cons (.call "Print" (.cons (.variableReference "x") .nil)) .nil))) =
      some ("lambda x: builtin__print(x)",
        { usingAssocBuiltin := false, usingPrintBuiltin := true }) ∧
    compile "Let[x, Print[x]]" =
      .ok (printPrintBuiltin ++ "\n" ++ "lambda x: builtin__print(x)") := by
  refine ⟨rfl, ?_⟩
  have h1 : parseCall (initLexer "Let[x, Print[x]]") =
      .ok (.call "Let" (.cons (.variableReference "x")
        (.cons (.call "Print" (.cons (.variableReference "x") .nil)) .nil)))
        { st := { row := 0, col := 11 }, tokenQueue := [], src := [] } := by
    simp [parseCall, parseCallB, parseArgsB, parseExpressionB, parseAssignmentB,
      parseArgsLoopB, expectToken, Next, lognext, lexnext, nextLoop, MustPeek, Peek,
      fill, fillN, Consume, classifyRune, isLetterRune, isDigitRune, isNewlineRune,
      isSkipRune, resultTypIs, initLexer, ExprList.snoc]
  have h2 : parseCall { st := { row := 0, col := 11 }, tokenQueue := [], src := [] } =
      .err .eof { st := { row := 0, col := 11 }, tokenQueue := [], src := [] } := by
    simp [parseCall, parseCallB, expectToken, Next, lognext, lexnext, nextLoop]
  have h3 : Parse (initLexer "Let[x, Print[x]]") =
      .ok { expressions := .cons (.call "Let" (.cons (.variableReference "x")
        (.cons (.call "Print" (.cons (.variableReference "x") .nil)) .nil))) .nil } := by
    unfold Parse
    rw [parseLoop_ok h1]
    simp only [ExprList.snoc]
    rw [parseLoop_eof h2]
  simp only [compile, h3]
  rfl

end Eicg
